import Mathlib

/-!
Verification of the shulkerbox datapack compiler core.

This file gives a shallow embedding, in Lean 4, of the condition algebra,
the execute-chain compiler, the two if/else lowering strategies, the group
hoisting mechanism and the raw-command validator of the shulkerbox
repository, and proves or refutes the frozen claims about them.

Conventions of the embedding:
* Rust `String` is Lean `String`; `cmd.split('\n').count()` is modelled as
  the number of newline characters plus one (which is exactly what the Rust
  expression computes).
* The md5 hex digest comes from the external crate `chksum_md5`, which is
  not part of the repository; it is modelled as an abstract function
  `md5h : String → String` threaded through every compile function.
* The mutable `FunctionCompilerState` (uid counter behind a mutex, shared
  function queue, fixed path and namespace) is threaded explicitly as a
  record; the global `CompilerState` is an empty struct in the source and
  is omitted.
-/

namespace Shulkerbox

/-- Condition for the execute command (src/datapack/command/execute/conditional.rs). -/
inductive Condition : Type where
  | Atom : String → Condition
  | Not : Condition → Condition
  | And : Condition → Condition → Condition
  | Or : Condition → Condition → Condition
deriving DecidableEq, Repr

namespace Condition

/-- Structural size of a condition, used as the termination measure for
`normalize` and `to_truth_table`. -/
def csize : Condition → Nat
  | .Atom _ => 1
  | .Not c => 1 + csize c
  | .And a b => 1 + csize a + csize b
  | .Or a b => 1 + csize a + csize b

theorem csize_pos (c : Condition) : 0 < csize c := by
  cases c <;> simp [csize]

/-- Normalize the condition to eliminate complex negations, using
De Morgan's laws (`Condition::normalize`). -/
def normalize : Condition → Condition
  | .Atom s => .Atom s
  | .Not c =>
    match c with
    | .Atom s => .Not (.Atom s)
    | .Not c => normalize c
    | .And a b => .Or (normalize (.Not a)) (normalize (.Not b))
    | .Or a b => .And (normalize (.Not a)) (normalize (.Not b))
  | .And a b => .And (normalize a) (normalize b)
  | .Or a b => .Or (normalize a) (normalize b)
termination_by c => csize c
decreasing_by all_goals simp [csize] <;> omega

/-- A condition contains no `Not` node wrapping an `And`, `Or` or `Not` node. -/
def noComplexNot : Condition → Bool
  | .Atom _ => true
  | .Not c =>
    match c with
    | .Atom _ => true
    | _ => false
  | .And a b => noComplexNot a && noComplexNot b
  | .Or a b => noComplexNot a && noComplexNot b

theorem normalize_noComplexNot (c : Condition) : noComplexNot (normalize c) = true := by
  induction c using normalize.induct <;>
    simp_all [normalize, noComplexNot]

theorem normalize_idem (c : Condition) : normalize (normalize c) = normalize c := by
  induction c using normalize.induct <;>
    simp_all [normalize]

theorem normalize_or_fix {c a b : Condition} (h : normalize c = .Or a b) :
    normalize a = a ∧ normalize b = b := by
  have h2 := normalize_idem c
  rw [h] at h2
  simpa [normalize] using h2

theorem normalize_and_fix {c a b : Condition} (h : normalize c = .And a b) :
    normalize a = a ∧ normalize b = b := by
  have h2 := normalize_idem c
  rw [h] at h2
  simpa [normalize] using h2

/-- Convert the condition into a truth table (`Condition::to_truth_table`):
the list of disjunctive clauses.  Note that the `Atom`/`Not` branch of the
source returns `vec![self.clone()]` — the original, unnormalized
condition — which the claims below examine. -/
def to_truth_table (c : Condition) : List Condition :=
  match h : normalize c with
  | .Atom _ => [c]
  | .Not _ => [c]
  | .Or a b => to_truth_table a ++ to_truth_table b
  | .And a b =>
    (to_truth_table a).flatMap fun el1 =>
      (to_truth_table b).map fun el2 => Condition.And el1 el2
termination_by csize (normalize c)
decreasing_by
  · rw [(normalize_or_fix h).1, h]
    simp [csize] <;> omega
  · rw [(normalize_or_fix h).2, h]
    simp [csize] <;> omega
  · rw [(normalize_and_fix h).1, h]
    simp [csize] <;> omega
  · rw [(normalize_and_fix h).2, h]
    simp [csize] <;> omega

theorem tt_atom {c : Condition} {s : String} (h : normalize c = .Atom s) :
    to_truth_table c = [c] := by
  rw [to_truth_table]
  split <;> simp_all

theorem tt_not {c d : Condition} (h : normalize c = .Not d) :
    to_truth_table c = [c] := by
  rw [to_truth_table]
  split <;> simp_all

theorem tt_or {c a b : Condition} (h : normalize c = .Or a b) :
    to_truth_table c = to_truth_table a ++ to_truth_table b := by
  rw [to_truth_table]
  split <;> simp_all

theorem tt_and {c a b : Condition} (h : normalize c = .And a b) :
    to_truth_table c =
      (to_truth_table a).flatMap fun el1 =>
        (to_truth_table b).map fun el2 => Condition.And el1 el2 := by
  rw [to_truth_table]
  split <;> simp_all

theorem tt_atom_direct (s : String) :
    to_truth_table (.Atom s) = [.Atom s] :=
  tt_atom (show normalize (.Atom s) = .Atom s by simp [normalize])

theorem tt_notAtom_direct (s : String) :
    to_truth_table (.Not (.Atom s)) = [.Not (.Atom s)] :=
  tt_not (show normalize (.Not (.Atom s)) = .Not (.Atom s) by simp [normalize])

theorem tt_or_direct (a b : Condition) :
    to_truth_table (.Or a b)
      = to_truth_table (normalize a) ++ to_truth_table (normalize b) :=
  tt_or (show normalize (.Or a b) = .Or (normalize a) (normalize b) by
    simp [normalize])

theorem tt_and_direct (a b : Condition) :
    to_truth_table (.And a b)
      = (to_truth_table (normalize a)).flatMap fun el1 =>
          (to_truth_table (normalize b)).map fun el2 => Condition.And el1 el2 :=
  tt_and (show normalize (.And a b) = .And (normalize a) (normalize b) by
    simp [normalize])

/-- The truth table of `normalize c` has the same length as the truth table
of `c` (the two lists agree except that the `Atom`/`Not` base case returns
the receiver itself). -/
theorem tt_normalize_length (c : Condition) :
    (to_truth_table (normalize c)).length = (to_truth_table c).length := by
  cases h : normalize c with
  | Atom s =>
    rw [tt_atom h,
      tt_atom (show normalize (Condition.Atom s) = Condition.Atom s by simp [normalize])]
    rfl
  | Not d =>
    rw [tt_not h]
    have hfix : normalize (Condition.Not d) = Condition.Not d := by
      have h2 := normalize_idem c
      rwa [h] at h2
    rw [tt_not hfix]
    rfl
  | Or a b =>
    rw [tt_or h]
    have hfix : normalize (Condition.Or a b) = Condition.Or a b := by
      have h2 := normalize_idem c
      rwa [h] at h2
    rw [tt_or hfix]
  | And a b =>
    rw [tt_and h]
    have hfix : normalize (Condition.And a b) = Condition.And a b := by
      have h2 := normalize_idem c
      rwa [h] at h2
    rw [tt_and hfix]

theorem length_flatMap_const {α β : Type} (l : List α) (f : α → List β) (n : Nat)
    (h : ∀ x ∈ l, (f x).length = n) : (l.flatMap f).length = l.length * n := by
  induction l with
  | nil => simp
  | cons x xs ih =>
    have hx : (f x).length = n := h x (by simp)
    have hrest : (xs.flatMap f).length = xs.length * n :=
      ih fun y hy => h y (by simp [hy])
    simp [List.flatMap_cons, hx, hrest, Nat.succ_mul, Nat.add_comm]

theorem tt_and_length (a b : Condition) :
    (to_truth_table (.And a b)).length =
      (to_truth_table a).length * (to_truth_table b).length := by
  have h : normalize (Condition.And a b) = .And (normalize a) (normalize b) := by
    simp [normalize]
  rw [tt_and h,
    length_flatMap_const _ _ (to_truth_table b).length
      (fun x _ => by simp [tt_normalize_length]),
    tt_normalize_length]

theorem tt_or_length (a b : Condition) :
    (to_truth_table (.Or a b)).length =
      (to_truth_table a).length + (to_truth_table b).length := by
  have h : normalize (Condition.Or a b) = .Or (normalize a) (normalize b) := by
    simp [normalize]
  rw [tt_or h]
  simp [tt_normalize_length]

/-- Convert a single clause into literal test syntax (`Condition::str_cond`);
`none` models the `Option::None` of the source. -/
def str_cond : Condition → Option String
  | .Atom s => some ("if " ++ s)
  | .Not n =>
    match n with
    | .Atom s => some ("unless " ++ s)
    | _ => none
  | .And a b =>
    match str_cond a, str_cond b with
    | some x, some y => some (x ++ " " ++ y)
    | _, _ => none
  | .Or _ _ => none

/-- The marker produced where the Rust source panics via
`.expect("Truth table should not contain Or variants")`. -/
def panicMarker : String := "PANIC: Truth table should not contain Or variants"

/-- `Condition::compile`: maps `str_cond` over the truth table.  The source
aborts (panics) wherever `str_cond` is `None`; the embedding totalizes that
with `panicMarker`, and `compile_panics` records whether the panic is hit. -/
def compile (c : Condition) : List String :=
  (to_truth_table c).map fun cl => (str_cond cl).getD panicMarker

/-- Whether `Condition::compile` hits the `expect` panic. -/
def compile_panics (c : Condition) : Bool :=
  (to_truth_table c).any fun cl => (str_cond cl).isNone

end Condition

/-- Claim C1: the claim states that every clause of `to_truth_table` is an
And/Not-of-Atom tree free of `Or`, and hence that `Condition::compile` never
hits its `expect` panic.  This is false: for the input `Not(Not(Atom "a"))`
the truth table is `[Not(Not(Atom "a"))]` (the `Atom`/`Not` branch of
`to_truth_table` returns the original receiver, not its normal form), that
clause wraps `Not` in `Not`, its `str_cond` is `None`, and `compile`
panics — contradicting the source's own doc comment on `to_truth_table`
("do not contain disjunctions and complex negations in them") and the
`expect` message.  This theorem evaluates the code at the failing input. -/
theorem C1_truth_table_panics :
    Condition.to_truth_table (.Not (.Not (.Atom "a"))) = [.Not (.Not (.Atom "a"))]
      ∧ Condition.str_cond (.Not (.Not (.Atom "a"))) = none
      ∧ Condition.compile_panics (.Not (.Not (.Atom "a"))) = true := by
  have h : Condition.normalize (.Not (.Not (.Atom "a"))) = .Atom "a" := by
    simp [Condition.normalize]
  refine ⟨Condition.tt_atom h, rfl, ?_⟩
  simp [Condition.compile_panics, Condition.tt_atom h, Condition.str_cond]

/-- Claim C5: `normalize` is idempotent and its result contains no `Not`
node wrapping an `And`, `Or`, or `Not` node. -/
theorem C5_normalize_idempotent_noComplexNot (c : Condition) :
    Condition.normalize (Condition.normalize c) = Condition.normalize c
      ∧ Condition.noComplexNot (Condition.normalize c) = true :=
  ⟨Condition.normalize_idem c, Condition.normalize_noComplexNot c⟩

/-- Claim C6: the truth table of `And(a,b)` has length equal to the product
of the lengths of the truth tables of `a` and `b`, and the truth table of
`Or(a,b)` has length equal to their sum. -/
theorem C6_truth_table_lengths (a b : Condition) :
    (Condition.to_truth_table (.And a b)).length =
        (Condition.to_truth_table a).length * (Condition.to_truth_table b).length
      ∧ (Condition.to_truth_table (.Or a b)).length =
        (Condition.to_truth_table a).length + (Condition.to_truth_table b).length :=
  ⟨Condition.tt_and_length a b, Condition.tt_or_length a b⟩

/-! ## The command data model

`Execute` and `Command` from src/datapack/command/execute/mod.rs and
src/datapack/command/mod.rs.  The Rust `then`/`else` fields of `If` are
`thn`/`el` here (`then` is a Lean keyword). -/

mutual

/-- Execute command with all its variants (src `Execute`). -/
inductive Execute : Type where
  | Align : String → Execute → Execute
  | Anchored : String → Execute → Execute
  | As : String → Execute → Execute
  | At : String → Execute → Execute
  | AsAt : String → Execute → Execute
  | Facing : String → Execute → Execute
  | In : String → Execute → Execute
  | On : String → Execute → Execute
  | Positioned : String → Execute → Execute
  | Rotated : String → Execute → Execute
  | Store : String → Execute → Execute
  | Summon : String → Execute → Execute
  | If : Condition → Execute → Option Execute → Execute
  | Run : Command → Execute
  | Runs : List Command → Execute

/-- A command that can be included in a function (src `Command`). -/
inductive Command : Type where
  | Raw : String → Command
  | Debug : String → Command
  | Execute : Execute → Command
  | Group : List Command → Command
  | Comment : String → Command

end

/-- Function that can be called by a command (src `Function`; renamed, as
`Function` is taken by the Lean root namespace). -/
structure Func : Type where
  commands : List Command
  name : String
  nspace : String

/-- Per-function compile state (src `FunctionCompilerState`): the uid
counter behind its mutex, the fixed path and namespace of the function
being compiled, and the shared queue of generated functions (modelled as a
list to which `add_function` appends). -/
structure FState : Type where
  uid_counter : Nat
  path : String
  nspace : String
  functions : List (String × Func)

/-- `FunctionCompilerState::request_uid`: returns the current counter value
and increments it. -/
def FState.request_uid (st : FState) : Nat × FState :=
  (st.uid_counter, { st with uid_counter := st.uid_counter + 1 })

/-- `FunctionCompilerState::add_function`: pushes onto the shared queue. -/
def FState.add_function (st : FState) (name : String) (f : Func) : FState :=
  { st with functions := st.functions ++ [(name, f)] }

/-- Compile options (src `CompileOptions`): the debug flag and the pack
format read by `compile_if_cond` (`options.pack_format`). -/
structure CompileOptions : Type where
  debug : Bool
  pack_format : Nat

/-! ### Structural measures

`wCmd`/`wExe` is the hoisting weight (text-only commands weigh 0), used as
the primary termination measure of the compiler and as the termination
measure of the worklist drain; `sCmd`/`sExe` is plain structural size, the
secondary lexicographic component. -/

mutual

def wCmd : Command → Nat
  | .Raw _ => 0
  | .Debug _ => 0
  | .Comment _ => 0
  | .Execute e => 1 + wExe e
  | .Group cs => 1 + wCmds cs

def wCmds : List Command → Nat
  | [] => 0
  | c :: cs => wCmd c + wCmds cs

def wExe : Execute → Nat
  | .Align _ nxt => 1 + wExe nxt
  | .Anchored _ nxt => 1 + wExe nxt
  | .As _ nxt => 1 + wExe nxt
  | .At _ nxt => 1 + wExe nxt
  | .AsAt _ nxt => 1 + wExe nxt
  | .Facing _ nxt => 1 + wExe nxt
  | .In _ nxt => 1 + wExe nxt
  | .On _ nxt => 1 + wExe nxt
  | .Positioned _ nxt => 1 + wExe nxt
  | .Rotated _ nxt => 1 + wExe nxt
  | .Store _ nxt => 1 + wExe nxt
  | .Summon _ nxt => 1 + wExe nxt
  | .If _ thn el => 3 + wExe thn + wOpt el
  | .Run cmd => 1 + wCmd cmd
  | .Runs cs => 1 + wCmds cs

def wOpt : Option Execute → Nat
  | none => 0
  | some e => 1 + wExe e

end

mutual

def sCmd : Command → Nat
  | .Raw _ => 1
  | .Debug _ => 1
  | .Comment _ => 1
  | .Execute e => 1 + sExe e
  | .Group cs => 1 + sCmds cs

def sCmds : List Command → Nat
  | [] => 0
  | c :: cs => sCmd c + sCmds cs

def sExe : Execute → Nat
  | .Align _ nxt => 1 + sExe nxt
  | .Anchored _ nxt => 1 + sExe nxt
  | .As _ nxt => 1 + sExe nxt
  | .At _ nxt => 1 + sExe nxt
  | .AsAt _ nxt => 1 + sExe nxt
  | .Facing _ nxt => 1 + sExe nxt
  | .In _ nxt => 1 + sExe nxt
  | .On _ nxt => 1 + sExe nxt
  | .Positioned _ nxt => 1 + sExe nxt
  | .Rotated _ nxt => 1 + sExe nxt
  | .Store _ nxt => 1 + sExe nxt
  | .Summon _ nxt => 1 + sExe nxt
  | .If _ thn el => 3 + sExe thn + sOpt el
  | .Run cmd => 1 + sCmd cmd
  | .Runs cs => 1 + sCmds cs

def sOpt : Option Execute → Nat
  | none => 0
  | some e => 1 + sExe e

end

theorem sCmd_pos (c : Command) : 0 < sCmd c := by cases c <;> simp [sCmd]

theorem wCmds_append (a b : List Command) : wCmds (a ++ b) = wCmds a + wCmds b := by
  induction a with
  | nil => simp [wCmds]
  | cons c cs ih => simp [wCmds, ih]; omega

theorem sCmds_append (a b : List Command) : sCmds (a ++ b) = sCmds a + sCmds b := by
  induction a with
  | nil => simp [sCmds]
  | cons c cs ih => simp [sCmds, ih]; omega

theorem wCmds_map_raw {α : Type} (l : List α) (f : α → String) :
    wCmds (l.map fun x => Command.Raw (f x)) = 0 := by
  induction l <;> simp_all [wCmds, wCmd]

/-- The `group_cmds` construction of `handle_return_group_case_since_20`:
each combined then-line becomes `Raw("execute {cmd}")`. -/
def raw_execute_cmds (l : List (Bool × String)) : List Command :=
  l.map fun p => Command.Raw ("execute " ++ p.2)

theorem wCmds_raw_execute_cmds (l : List (Bool × String)) :
    wCmds (raw_execute_cmds l) = 0 :=
  wCmds_map_raw l _

/-- The optional success-flag write appended to the grouped then-commands
by `compile_pre_20_format` (`if el.is_some() && str_cond.len() <= 1`). -/
def success_flag_cmd (flag : Bool) (success_uid : String) : List Command :=
  if flag then
    [Command.Raw ("data modify storage shulkerbox:cond " ++ success_uid
      ++ " set value true")]
  else []

theorem wCmds_success_flag_cmd (flag : Bool) (s : String) :
    wCmds (success_flag_cmd flag s) = 0 := by
  unfold success_flag_cmd; split <;> simp [wCmds, wCmd]

theorem sCmds_success_flag_cmd (flag : Bool) (s : String) :
    sCmds (success_flag_cmd flag s) ≤ 1 := by
  unfold success_flag_cmd; split <;> simp [sCmds, sCmd]

theorem lexHelp {a b c d : Nat} (h : a < c ∨ (a = c ∧ b < d)) :
    Prod.Lex (· < ·) (· < ·) (a, b) (c, d) := by
  rcases h with h | ⟨h1, h2⟩
  · exact Prod.Lex.left _ _ h
  · subst h1; exact Prod.Lex.right _ h2

/-- The `match then.clone() { Run(cmd) => vec![*cmd], Runs(cmds) => cmds,
ex => vec![Command::Execute(ex)] }` preparation step that appears verbatim
in `compile_pre_20_format`, `compile_since_20_format` and
`handle_return_group_case_since_20`. -/
def then_commands_of : Execute → List Command
  | .Run cmd => [cmd]
  | .Runs cmds => cmds
  | ex => [.Execute ex]

theorem wCmds_then_commands_of (t : Execute) :
    wCmds (then_commands_of t) ≤ 1 + wExe t := by
  cases t <;> simp [then_commands_of, wCmds, wCmd, wExe] <;> omega

theorem sCmds_then_commands_of (t : Execute) :
    sCmds (then_commands_of t) ≤ 1 + sExe t := by
  cases t <;> simp [then_commands_of, sCmds, sCmd, sExe] <;> omega

/-! ### String helpers -/

/-- Number of newline characters in a string. -/
def nlCount (s : String) : Nat := s.data.count '\n'

/-- Models Rust `cmd.split('\n').count()`: one more than the number of
newline characters. -/
def rawLineCount (s : String) : Nat := nlCount s + 1

/-- Models Rust `cmd.starts_with('#')`. -/
def startsWithHash (s : String) : Bool := s.data.head? == some '#'

/-- Models Rust `cmd.chars().all(char::is_whitespace)` (Lean's
`Char.isWhitespace` covers the ASCII whitespace actually produced by this
compiler). -/
def allWhitespace (s : String) : Bool := s.data.all Char.isWhitespace

/-- `map_run_cmd` (src/datapack/command/execute/mod.rs): combine command
parts, respecting if the command is a comment; the first tuple element
says whether the prefix applies. -/
def map_run_cmd (cmd : String) (pfx : String) : Bool × String :=
  if startsWithHash cmd || cmd.data.isEmpty || allWhitespace cmd then
    (false, cmd)
  else
    (true, pfx ++ "run " ++ cmd)

/-- `combine_conditions_commands` (conditional.rs): cartesian join of
condition strings with command lines, prefixing only lines whose
`use_prefix` flag is set. -/
def combine_conditions_commands (conditions : List String)
    (commands : List (Bool × String)) : List (Bool × String) :=
  conditions.flatMap fun cond =>
    commands.map fun p => (p.1, if p.1 then cond ++ " " ++ p.2 else p.2)

/-- Models `function_path.strip_prefix("sb/").unwrap_or(function_path)`
("sb/" is three ASCII characters). -/
def strip_sb (s : String) : String :=
  if "sb/".data.isPrefixOf s.data then ⟨s.data.drop 3⟩ else s

/-- Models `&hash[..16]` on the md5 hex digest (always 32 ASCII
characters for the real digest). -/
def take16 (s : String) : String := ⟨s.data.take 16⟩

/-- The `.map(|(use_prefix, cmd)| ...)` postlude shared by
`compile_pre_20_format` and `compile_since_20_format`: prepend the
accumulated prefix to every line whose `use_prefix` flag is set. -/
def apply_pfx (pfx : String) (l : List (Bool × String)) : List (Bool × String) :=
  l.map fun p => (p.1, if p.1 then pfx ++ p.2 else p.2)

/-- The success-flag atom `data storage shulkerbox:cond {uid:1b}` used by
Strategy A. -/
def success_cond_atom (success_uid : String) : Condition :=
  .Atom ("data storage shulkerbox:cond \x7b" ++ success_uid ++ ":1b\x7d")

/-- The `each_or_cmd` computation of `compile_pre_20_format`: when the
condition splits into several disjuncts, one guarded success-flag write per
disjunct.  `rguid.getD "if_success"` models the
`unwrap_or_else(|| { tracing::error!(...); "if_success" })` fallback. -/
def pre20_each_or (str_cond : List String) (rguid : Option String) :
    Option (String × List (Bool × String)) :=
  if str_cond.length > 1 then
    some ("data modify storage shulkerbox:cond " ++ (rguid.getD "if_success")
        ++ " set value true",
      combine_conditions_commands str_cond
        [(true, "run data modify storage shulkerbox:cond "
          ++ (rguid.getD "if_success") ++ " set value true")])
  else none

/-- The `successful_cond` computation of `compile_pre_20_format`. -/
def pre20_successful_cond (str_cond : List String) (rguid : Option String) :
    List String :=
  if (pre20_each_or str_cond rguid).isSome then
    (success_cond_atom (rguid.getD "if_success")).compile
  else str_cond

/-- The `reset_success_storage` computation of `compile_pre_20_format`. -/
def pre20_reset (str_cond : List String) (rguid : Option String)
    (el_present : Bool) : Option (Bool × String) :=
  if (pre20_each_or str_cond rguid).isSome || el_present then
    some (false, "data remove storage shulkerbox:cond "
      ++ (rguid.getD "if_success"))
  else none

/-- `compile_debug` (src/datapack/command/mod.rs): one fixed-format
tellraw line in debug mode, nothing otherwise.  Literal braces and
apostrophes of the Rust format string are written with escapes. -/
def compile_debug (message : String) (opts : CompileOptions) : List String :=
  if opts.debug then
    ["tellraw @a [\x7b\"text\":\"[\",\"color\":\"dark_blue\"\x7d,\x7b\"text\":\"DEBUG\",\"color\":\"dark_green\",\"hoverEvent\":\x7b\"action\":\"show_text\",\"value\":[\x7b\"text\":\"Debug message generated by Shulkerbox\"\x7d,\x7b\"text\":\"\\nSet debug message to \x27false\x27 to disable\"\x7d]\x7d\x7d,\x7b\"text\":\"]\",\"color\":\"dark_blue\"\x7d,\x7b\"text\":\" " ++ message ++ "\",\"color\":\"black\"\x7d]"]
  else
    []

/-! ## The compiler

The whole mutually recursive compile pipeline, parameterized by the
abstract md5 hex digest `md5h` (external crate) and the compile options.
Termination is by lexicographic `(hoisting weight, structural size)`: the
auxiliary command lists built by the if/else lowering may contain
unboundedly many `Raw` commands, but those weigh 0. -/

section Compiler

variable (md5h : String → String) (opts : CompileOptions)

/-- The `require_grouping_uid` computation of `compile_pre_20_format`:
when the else branch exists or the then branch counts more than one line,
request a fresh uid and hash `"<path>:<uid>"`. -/
def pre20_rguid (el_present : Bool) (then_count : Nat) (st : FState) :
    Option String × FState :=
  if el_present || then_count > 1 then
    match st.request_uid with
    | (uid, st') => (some (md5h (st'.path ++ ":" ++ toString uid)), st')
  else (none, st)

mutual

/-- `Command::compile` (src/datapack/command/mod.rs). -/
def Command.compile (c : Command) (st : FState) : List String × FState :=
  match c with
  | .Raw s => ([s], st)
  | .Debug m => (compile_debug m opts, st)
  | .Execute ex => Execute.compile ex st
  | .Group cmds => compile_group cmds st
  | .Comment s => (["#" ++ s], st)
termination_by (8 * wCmd c, 8 * sCmd c)
decreasing_by
  · apply lexHelp; simp [wCmd, sCmd]; omega
  · apply lexHelp; simp [wCmd, sCmd]; omega

/-- The state-threaded form of `commands.iter().flat_map(|c| c.compile(...))`
used by `compile_group` (inline branch), `Runs` and `Function::compile`. -/
def compileList (cs : List Command) (st : FState) : List String × FState :=
  match cs with
  | [] => ([], st)
  | c :: rest =>
    match Command.compile c st with
    | (l1, st1) =>
      match compileList rest st1 with
      | (l2, st2) => (l1 ++ l2, st2)
termination_by (8 * wCmds cs + 2, 8 * sCmds cs + 2)
decreasing_by
  · apply lexHelp; simp [wCmds, sCmds]; omega
  · apply lexHelp
    have := sCmd_pos c
    simp [wCmds, sCmds]; omega

/-- `compile_group` (src/datapack/command/mod.rs): hoist into a fresh
function when the children count to more than one line, else inline. -/
def compile_group (cmds : List Command) (st : FState) : List String × FState :=
  if getCountList cmds > 1 then
    match st.request_uid with
    | (uid, st1) =>
      let fp := strip_sb st1.path
      let hash := md5h (fp ++ ":" ++ toString uid)
      let function_path := "sb/" ++ fp ++ "/" ++ take16 hash
      let f : Func := ⟨cmds, function_path, st1.nspace⟩
      (["function " ++ st1.nspace ++ ":" ++ function_path],
        st1.add_function function_path f)
  else
    compileList cmds st
termination_by (8 * wCmds cmds + 6, 8 * sCmds cmds + 6)
decreasing_by
  · apply lexHelp; omega
  · apply lexHelp; omega

/-- `Command::get_count` (src/datapack/command/mod.rs). -/
def Command.get_count (c : Command) : Nat :=
  match c with
  | .Comment _ => 0
  | .Debug _ => if opts.debug then 1 else 0
  | .Raw cmd => rawLineCount cmd
  | .Execute ex => Execute.get_count ex
  | .Group _ => 1
termination_by (8 * wCmd c + 3, 8 * sCmd c + 3)
decreasing_by
  apply lexHelp; simp [wCmd, sCmd]; omega

/-- `commands.iter().map(|cmd| cmd.get_count(options)).sum()` from
`compile_group`. -/
def getCountList (cs : List Command) : Nat :=
  match cs with
  | [] => 0
  | c :: rest => Command.get_count c + getCountList rest
termination_by (8 * wCmds cs + 4, 8 * sCmds cs + 4)
decreasing_by
  · apply lexHelp; simp [wCmds, sCmds]; omega
  · apply lexHelp
    have := sCmd_pos c
    simp [wCmds, sCmds]; omega

/-- `Execute::get_count`: length of `compile_internal` with empty prefix,
no grouping requirement, and a fresh internal compiler state. -/
def Execute.get_count (e : Execute) : Nat :=
  (Execute.compile_internal e "" false ⟨0, "[INTERNAL]", "[INTERNAL]", []⟩).1.length
termination_by (8 * wExe e + 2, 8 * sExe e + 2)
decreasing_by
  apply lexHelp; omega

/-- `Execute::compile`: a bare `Run` root compiles its wrapped command
directly (no `"execute "` prefix); every other root shape goes through
`compile_internal` with the `"execute "` prefix and drops the
`use_prefix` flags. -/
def Execute.compile (e : Execute) (st : FState) : List String × FState :=
  match e with
  | .Run cmd => Command.compile cmd st
  | e =>
    match Execute.compile_internal e "execute " false st with
    | (ps, st1) => (ps.map (fun p => p.2), st1)
termination_by (8 * wExe e + 4, 8 * sExe e + 4)
decreasing_by
  · apply lexHelp; simp [wExe]; omega
  · apply lexHelp; omega

/-- `Execute::compile_internal`: walk the modifier chain accumulating the
literal prefix; `Summon` forces `require_grouping`; `If` delegates to
`compile_if_cond`; `Run`/`Runs` terminate via `map_run_cmd`. -/
def Execute.compile_internal (e : Execute) (pfx : String) (rg : Bool)
    (st : FState) : List (Bool × String) × FState :=
  match e with
  | .Align arg nxt => Execute.compile_internal nxt (pfx ++ "align " ++ arg ++ " ") rg st
  | .Anchored arg nxt => Execute.compile_internal nxt (pfx ++ "anchored " ++ arg ++ " ") rg st
  | .As arg nxt => Execute.compile_internal nxt (pfx ++ "as " ++ arg ++ " ") rg st
  | .At arg nxt => Execute.compile_internal nxt (pfx ++ "at " ++ arg ++ " ") rg st
  | .AsAt selector nxt =>
    Execute.compile_internal nxt (pfx ++ "as " ++ selector ++ " at @s ") rg st
  | .Facing arg nxt => Execute.compile_internal nxt (pfx ++ "facing " ++ arg ++ " ") rg st
  | .In arg nxt => Execute.compile_internal nxt (pfx ++ "in " ++ arg ++ " ") rg st
  | .On arg nxt => Execute.compile_internal nxt (pfx ++ "on " ++ arg ++ " ") rg st
  | .Positioned arg nxt =>
    Execute.compile_internal nxt (pfx ++ "positioned " ++ arg ++ " ") rg st
  | .Rotated arg nxt => Execute.compile_internal nxt (pfx ++ "rotated " ++ arg ++ " ") rg st
  | .Store arg nxt => Execute.compile_internal nxt (pfx ++ "store " ++ arg ++ " ") rg st
  | .Summon arg nxt => Execute.compile_internal nxt (pfx ++ "summon " ++ arg ++ " ") true st
  | .If cond thn el => compile_if_cond cond thn el pfx st
  | .Run cmd =>
    match cmd with
    | .Execute ex => Execute.compile_internal ex pfx rg st
    | cmd =>
      match Command.compile cmd st with
      | (ls, st1) => (ls.map (fun c => map_run_cmd c pfx), st1)
  | .Runs cmds =>
    if rg then
      match Command.compile (.Group cmds) st with
      | (ls, st1) => (ls.map (fun c => map_run_cmd c pfx), st1)
    else
      match compileList cmds st with
      | (ls, st1) => (ls.map (fun c => map_run_cmd c pfx), st1)
termination_by (8 * wExe e + 1, 8 * sExe e + 1)
decreasing_by
  all_goals apply lexHelp
  all_goals simp [wExe, sExe, wCmd, sCmd, wOpt, sOpt] <;> omega

/-- `compile_if_cond` (conditional.rs): dispatch on the pack-format
threshold 20. -/
def compile_if_cond (cond : Condition) (thn : Execute) (el : Option Execute)
    (pfx : String) (st : FState) : List (Bool × String) × FState :=
  if opts.pack_format < 20 then
    compile_pre_20_format cond thn el pfx st
  else
    compile_since_20_format cond thn el pfx st
termination_by (8 * (3 + wExe thn + wOpt el) - 1, 8 * (3 + sExe thn + sOpt el) - 1)
decreasing_by
  · apply lexHelp; omega
  · apply lexHelp; omega

/-- The then-branch lowering of `compile_pre_20_format`: with a grouping
uid, fold the then branch (plus, for a single-clause condition with an
else, the success-flag write) into a `Group` and reference it with
`"run "`; without one, compile it inline. -/
def pre20_then_part (rguid : Option String) (thn : Execute)
    (el_present : Bool) (cond_len : Nat) (st : FState) :
    List (Bool × String) × FState :=
  match rguid with
  | some success_uid =>
    match Command.compile (.Group (then_commands_of thn ++
        success_flag_cmd (el_present && cond_len ≤ 1) success_uid)) st with
    | (gl, st') => (gl.map fun s => (true, "run " ++ s), st')
  | none => Execute.compile_internal thn "" false st
termination_by (8 * (2 + wExe thn) + 1, 8 * (2 + sExe thn) + 1)
decreasing_by
  · apply lexHelp
    have h1 := wCmds_then_commands_of thn
    have h2 := sCmds_then_commands_of thn
    have h3 := wCmds_success_flag_cmd (el_present && cond_len ≤ 1) success_uid
    have h4 := sCmds_success_flag_cmd (el_present && cond_len ≤ 1) success_uid
    simp [wCmd, sCmd, wCmds_append, sCmds_append]
    omega
  · apply lexHelp; omega

/-- The else-branch lowering of `compile_pre_20_format`: guard the else
lines on the negated success-flag check. -/
def pre20_else_part (rguid : Option String) (el : Option Execute)
    (st : FState) : List (Bool × String) × FState :=
  match el with
  | some e =>
    let else_cond :=
      (Condition.Not (success_cond_atom (rguid.getD "if_success"))).compile
    match Execute.compile_internal e "" (else_cond.length > 1) st with
    | (ellines, st') => (combine_conditions_commands else_cond ellines, st')
  | none => ([], st)
termination_by (8 * wOpt el + 1, 8 * sOpt el + 1)
decreasing_by
  apply lexHelp; simp [wOpt, sOpt] <;> omega

/-- `compile_pre_20_format` (conditional.rs): the legacy (Strategy A)
if/else lowering with its persistent success-flag storage.  The pure
pieces (`pre20_each_or`, `pre20_successful_cond`, `pre20_reset`) are
top-level helpers above. -/
def compile_pre_20_format (cond : Condition) (thn : Execute)
    (el : Option Execute) (pfx : String) (st : FState) :
    List (Bool × String) × FState :=
  match pre20_rguid md5h el.isSome (Execute.get_count thn) st with
  | (rguid, st1) =>
    match pre20_then_part rguid thn el.isSome cond.compile.length st1 with
    | (thenLines, st2) =>
      match pre20_else_part rguid el st2 with
      | (el_commands, st3) =>
        (apply_pfx pfx
          ((pre20_reset cond.compile rguid el.isSome).toList
            ++ ((pre20_each_or cond.compile rguid).map (fun p => p.2)).getD []
            ++ combine_conditions_commands
                (pre20_successful_cond cond.compile rguid) thenLines
            ++ el_commands
            ++ (pre20_reset cond.compile rguid el.isSome).toList), st3)
termination_by (8 * (3 + wExe thn + wOpt el) - 2, 8 * (3 + sExe thn + sOpt el) - 2)
decreasing_by
  · apply lexHelp; omega
  · apply lexHelp; omega
  · apply lexHelp; omega

/-- `compile_since_20_format` (conditional.rs): the modern (Strategy B)
if/else lowering using the early-return idiom. -/
def compile_since_20_format (cond : Condition) (thn : Execute)
    (el : Option Execute) (pfx : String) (st : FState) :
    List (Bool × String) × FState :=
  let then_count := Execute.get_count thn
  let str_cond := cond.compile
  if el.isSome || str_cond.length > 1 then
    match handle_return_group_case_since_20 str_cond thn el pfx st with
    | (⟨group_cmds, hgc⟩, st1) =>
      match Command.compile (.Group group_cmds) st1 with
      | (gl, st2) => (gl.map fun s => (true, s), st2)
  else if then_count > 1 then
    match Command.compile (.Group (then_commands_of thn)) st with
    | (gl, st1) =>
      ((combine_conditions_commands str_cond
          (gl.map fun s => (true, "run " ++ s))).map
        (fun p => (p.1, if p.1 then pfx ++ p.2 else p.2)), st1)
  else
    match Execute.compile_internal thn "" false st with
    | (ls, st1) =>
      ((combine_conditions_commands str_cond ls).map
        (fun p => (p.1, if p.1 then pfx ++ p.2 else p.2)), st1)
termination_by (8 * (3 + wExe thn + wOpt el) - 2, 8 * (3 + sExe thn + sOpt el) - 2)
decreasing_by
  · apply lexHelp; omega
  · apply lexHelp; omega
  · apply lexHelp
    simp [wCmd, sCmd]
    omega
  · apply lexHelp
    have h1 := wCmds_then_commands_of thn
    have h2 := sCmds_then_commands_of thn
    simp [wCmd, sCmd]
    omega
  · apply lexHelp; omega

/-- `handle_return_group_case_since_20` (conditional.rs).  The subtype
records the invariant, needed for termination, that the produced command
list weighs no more than the else branch (the then part is all `Raw`). -/
def handle_return_group_case_since_20 (strs : List String) (thn : Execute)
    (el : Option Execute) (pfx : String) (st : FState) :
    {cs : List Command // wCmds cs ≤ wOpt el} × FState :=
  match Command.compile (.Group (then_commands_of thn)) st with
  | (gl, st1) =>
    let then_cond_str := combine_conditions_commands strs
      (gl.map fun s => (true, "run return run " ++ s))
    let group_cmds := raw_execute_cmds then_cond_str
    match el with
    | some e =>
      match handle_else_since_20 e pfx st1 with
      | (⟨el_cmd, hel⟩, st2) =>
        (⟨group_cmds ++ el_cmd, by
          have hg : wCmds group_cmds = 0 := wCmds_raw_execute_cmds then_cond_str
          simp [wCmds_append, wOpt]
          omega⟩, st2)
    | none =>
      (⟨group_cmds, by
        have hg : wCmds group_cmds = 0 := wCmds_raw_execute_cmds then_cond_str
        simp [wOpt]
        omega⟩, st1)
termination_by (8 * (2 + wExe thn + wOpt el) + 4, 8 * (2 + sExe thn + sOpt el) + 4)
decreasing_by
  · apply lexHelp
    have h1 := wCmds_then_commands_of thn
    have h2 := sCmds_then_commands_of thn
    simp [wCmd, sCmd]
    omega
  · apply lexHelp; simp [wOpt, sOpt]; omega

/-- `handle_else_since_20` (conditional.rs): flatten an else (or else-if
chain) into the hoisted group.  The subtype records the weight bound used
for termination. -/
def handle_else_since_20 (el : Execute) (pfx : String) (st : FState) :
    {cs : List Command // wCmds cs ≤ 1 + wExe el} × FState :=
  match el with
  | .If cond2 thn2 el2 =>
    match handle_return_group_case_since_20 cond2.compile thn2 el2 pfx st with
    | (⟨cs, hcs⟩, st1) =>
      (⟨cs, by simp [wExe]; omega⟩, st1)
  | .Run (.Execute (.If cond2 thn2 el2)) =>
    match handle_return_group_case_since_20 cond2.compile thn2 el2 pfx st with
    | (⟨cs, hcs⟩, st1) =>
      (⟨cs, by simp [wExe, wCmd]; omega⟩, st1)
  | .Run cmd =>
    (⟨[cmd], by simp [wCmds, wExe]; omega⟩, st)
  | .Runs cmds =>
    (⟨cmds, by simp [wCmds, wExe]; omega⟩, st)
  | ex =>
    (⟨[.Execute ex], by simp [wCmds, wCmd, wExe]⟩, st)
termination_by (8 * wExe el + 10, 8 * sExe el + 10)
decreasing_by
  · apply lexHelp; simp [wExe, sExe]; omega
  · apply lexHelp; simp [wExe, sExe, wCmd, sCmd, wOpt, sOpt]; omega

end

end Compiler

/-! ## The validator (src/datapack/command/mod.rs, execute/mod.rs) -/

/-- Rust `char::is_ascii_whitespace`, as used by `split_ascii_whitespace`. -/
def ascii_whitespace (c : Char) : Bool :=
  c = ' ' || c = '\t' || c = '\n' || c = '\r' || c = '\x0c'

/-- Models `cmd.split_ascii_whitespace().next()`: the first maximal run of
non-whitespace characters, if any (computed on the character list). -/
def first_token (s : String) : Option String :=
  match s.data.dropWhile ascii_whitespace with
  | [] => none
  | rest => some ⟨rest.takeWhile fun c => !ascii_whitespace c⟩

/-- `Datapack::LATEST_FORMAT`. -/
def LATEST_FORMAT : Nat := 48

/-- The static `CMD_FORMATS` table: each known leading verb maps to its
inclusive supported pack-format range.  `ANY` is `0..=LATEST`. -/
def cmd_formats : List (String × Nat × Nat) :=
  [("advancement", 0, 48), ("ban", 0, 48), ("ban-ip", 0, 48),
   ("banlist", 0, 48), ("clear", 0, 48), ("clone", 0, 48), ("debug", 0, 48),
   ("defaultgamemode", 0, 48), ("deop", 0, 48), ("difficulty", 0, 48),
   ("effect", 0, 48), ("enchant", 0, 48), ("execute", 0, 48),
   ("experience", 0, 48), ("fill", 0, 48), ("gamemode", 0, 48),
   ("gamerule", 0, 48), ("give", 0, 48), ("help", 0, 48), ("kick", 0, 48),
   ("kill", 0, 48), ("list", 0, 48), ("locate", 0, 48), ("me", 0, 48),
   ("msg", 0, 48), ("op", 0, 48), ("pardon", 0, 48), ("pardon-ip", 0, 48),
   ("particle", 0, 48), ("playsound", 0, 48), ("publish", 0, 48),
   ("recipe", 0, 48), ("reload", 0, 48), ("save-all", 0, 48),
   ("save-off", 0, 48), ("save-on", 0, 48), ("say", 0, 48),
   ("scoreboard", 0, 48), ("seed", 0, 48), ("setblock", 0, 48),
   ("setidletimeout", 0, 48), ("setworldspawn", 0, 48),
   ("spawnpoint", 0, 48), ("spreadplayers", 0, 48), ("stop", 0, 48),
   ("stopsound", 0, 48), ("summon", 0, 48), ("teleport", 0, 48),
   ("tell", 0, 48), ("tellraw", 0, 48), ("time", 0, 48), ("title", 0, 48),
   ("tp", 0, 48), ("trigger", 0, 48), ("w", 0, 48), ("weather", 0, 48),
   ("whitelist", 0, 48), ("worldborder", 0, 48), ("xp", 0, 48),
   ("attribute", 6, 48), ("bossbar", 4, 48), ("damage", 12, 48),
   ("data", 4, 48), ("datapack", 4, 48), ("fillbiome", 12, 48),
   ("forceload", 4, 48), ("function", 4, 48), ("replaceitem", 0, 6),
   ("item", 7, 48), ("jfr", 8, 48), ("loot", 4, 48), ("perf", 7, 48),
   ("place", 10, 48), ("placefeature", 9, 9), ("random", 18, 48),
   ("return", 15, 48), ("ride", 12, 48), ("schedule", 4, 48),
   ("spectate", 5, 48), ("tag", 4, 48), ("team", 4, 48),
   ("teammsg", 4, 48), ("tick", 22, 48), ("tm", 4, 48), ("transfer", 41, 48)]

/-- `validate_raw_cmd`: the leading verb, when present in the table, must
have its supported range contain the whole queried range; an unknown or
absent verb validates unconditionally. -/
def validate_raw_cmd (cmd : String) (pack_formats : Nat × Nat) : Bool :=
  match first_token cmd with
  | none => true
  | some v =>
    match cmd_formats.lookup v with
    | none => true
    | some (start_cmd, end_cmd) =>
      decide (start_cmd ≤ pack_formats.1 ∧ end_cmd ≥ pack_formats.2)

mutual

/-- `Command::validate`. -/
def Command.validate (c : Command) (pack_formats : Nat × Nat) : Bool :=
  match c with
  | .Comment _ => true
  | .Debug _ => true
  | .Group _ => true
  | .Raw cmd => validate_raw_cmd cmd pack_formats
  | .Execute ex => Execute.validate ex pack_formats
termination_by 2 * sCmd c
decreasing_by simp [sCmd]; omega

/-- `cmds.iter().all(|cmd| cmd.validate(pack_formats))`. -/
def validateList (cs : List Command) (pack_formats : Nat × Nat) : Bool :=
  match cs with
  | [] => true
  | c :: rest => Command.validate c pack_formats && validateList rest pack_formats
termination_by 2 * sCmds cs + 1
decreasing_by
  · have := sCmd_pos c; simp [sCmds]; omega
  · have := sCmd_pos c; simp [sCmds]; omega

/-- `Execute::validate`. -/
def Execute.validate (e : Execute) (pack_formats : Nat × Nat) : Bool :=
  match e with
  | .Run cmd => Command.validate cmd pack_formats
  | .Runs cmds => validateList cmds pack_formats
  | .Facing _ nxt => 4 ≤ pack_formats.1 && Execute.validate nxt pack_formats
  | .Store _ nxt => 4 ≤ pack_formats.1 && Execute.validate nxt pack_formats
  | .Positioned _ nxt => 4 ≤ pack_formats.1 && Execute.validate nxt pack_formats
  | .Rotated _ nxt => 4 ≤ pack_formats.1 && Execute.validate nxt pack_formats
  | .In _ nxt => 4 ≤ pack_formats.1 && Execute.validate nxt pack_formats
  | .As _ nxt => 4 ≤ pack_formats.1 && Execute.validate nxt pack_formats
  | .At _ nxt => 4 ≤ pack_formats.1 && Execute.validate nxt pack_formats
  | .AsAt _ nxt => 4 ≤ pack_formats.1 && Execute.validate nxt pack_formats
  | .Align _ nxt => 4 ≤ pack_formats.1 && Execute.validate nxt pack_formats
  | .Anchored _ nxt => 4 ≤ pack_formats.1 && Execute.validate nxt pack_formats
  | .If _ thn el =>
    4 ≤ pack_formats.1 && Execute.validate thn pack_formats
      && (match el with
          | none => true
          | some e => Execute.validate e pack_formats)
  | .Summon _ nxt => 12 ≤ pack_formats.1 && Execute.validate nxt pack_formats
  | .On _ nxt => 12 ≤ pack_formats.1 && Execute.validate nxt pack_formats
termination_by 2 * sExe e + 1
decreasing_by
  all_goals simp [sExe, sCmd, sOpt] <;> omega

end

/-! ## Helper lemmas about the compiler -/

theorem sExe_pos (e : Execute) : 0 < sExe e := by
  cases e <;> simp [sExe]

theorem apply_pfx_mem {pfx : String} {l0 : List (Bool × String)} {u : Bool}
    {l : String} (h : (u, l) ∈ apply_pfx pfx l0) (hu : u = true) :
    ∃ r, l = pfx ++ r := by
  subst hu
  unfold apply_pfx at h
  obtain ⟨⟨u0, s0⟩, hmem, heq⟩ := List.mem_map.mp h
  simp at heq
  obtain ⟨hu0, hl⟩ := heq
  subst hu0
  simp at hl
  exact ⟨s0, hl.symm⟩

theorem map_run_cmd_prefixed {c pfx : String} {u : Bool} {l : String}
    (h : map_run_cmd c pfx = (u, l)) (hu : u = true) : ∃ r, l = pfx ++ r := by
  subst hu
  unfold map_run_cmd at h
  split at h
  · simp at h
  · simp at h
    exact ⟨"run " ++ c, by rw [← h, String.append_assoc]⟩

/-- Every output of the Strategy A lowering is of the shape
`apply_pfx pfx _`: flagged lines end up prefixed. -/
theorem pre20_output_shape (md5h : String → String) (opts : CompileOptions)
    (cond : Condition) (thn : Execute) (el : Option Execute) (pfx : String)
    (st : FState) :
    ∃ l0 st', compile_pre_20_format md5h opts cond thn el pfx st
      = (apply_pfx pfx l0, st') := by
  rw [compile_pre_20_format]
  split
  split
  split
  exact ⟨_, _, rfl⟩

/-- In the pre-threshold dialect, every `use_prefix = true` line produced by
`compile_internal` starts with the accumulated prefix. -/
theorem internal_prefix_pre20 (md5h : String → String) (opts : CompileOptions)
    (hpf : opts.pack_format < 20) :
    ∀ n e pfx rg st u l, sExe e ≤ n →
      (u, l) ∈ (Execute.compile_internal md5h opts e pfx rg st).1 →
      u = true → ∃ r, l = pfx ++ r := by
  intro n
  induction n with
  | zero =>
    intro e pfx rg st u l hsz
    have := sExe_pos e
    omega
  | succ n ih =>
    intro e pfx rg st u l hsz hmem hu
    cases e with
    | Align arg nxt =>
      rw [Execute.compile_internal] at hmem
      obtain ⟨r, hr⟩ := ih nxt _ rg st u l (by simp [sExe] at hsz; omega) hmem hu
      exact ⟨"align " ++ arg ++ " " ++ r, by rw [hr]; simp [String.append_assoc]⟩
    | Anchored arg nxt =>
      rw [Execute.compile_internal] at hmem
      obtain ⟨r, hr⟩ := ih nxt _ rg st u l (by simp [sExe] at hsz; omega) hmem hu
      exact ⟨"anchored " ++ arg ++ " " ++ r, by rw [hr]; simp [String.append_assoc]⟩
    | As arg nxt =>
      rw [Execute.compile_internal] at hmem
      obtain ⟨r, hr⟩ := ih nxt _ rg st u l (by simp [sExe] at hsz; omega) hmem hu
      exact ⟨"as " ++ arg ++ " " ++ r, by rw [hr]; simp [String.append_assoc]⟩
    | At arg nxt =>
      rw [Execute.compile_internal] at hmem
      obtain ⟨r, hr⟩ := ih nxt _ rg st u l (by simp [sExe] at hsz; omega) hmem hu
      exact ⟨"at " ++ arg ++ " " ++ r, by rw [hr]; simp [String.append_assoc]⟩
    | AsAt arg nxt =>
      rw [Execute.compile_internal] at hmem
      obtain ⟨r, hr⟩ := ih nxt _ rg st u l (by simp [sExe] at hsz; omega) hmem hu
      exact ⟨"as " ++ arg ++ " at @s " ++ r, by rw [hr]; simp [String.append_assoc]⟩
    | Facing arg nxt =>
      rw [Execute.compile_internal] at hmem
      obtain ⟨r, hr⟩ := ih nxt _ rg st u l (by simp [sExe] at hsz; omega) hmem hu
      exact ⟨"facing " ++ arg ++ " " ++ r, by rw [hr]; simp [String.append_assoc]⟩
    | In arg nxt =>
      rw [Execute.compile_internal] at hmem
      obtain ⟨r, hr⟩ := ih nxt _ rg st u l (by simp [sExe] at hsz; omega) hmem hu
      exact ⟨"in " ++ arg ++ " " ++ r, by rw [hr]; simp [String.append_assoc]⟩
    | On arg nxt =>
      rw [Execute.compile_internal] at hmem
      obtain ⟨r, hr⟩ := ih nxt _ rg st u l (by simp [sExe] at hsz; omega) hmem hu
      exact ⟨"on " ++ arg ++ " " ++ r, by rw [hr]; simp [String.append_assoc]⟩
    | Positioned arg nxt =>
      rw [Execute.compile_internal] at hmem
      obtain ⟨r, hr⟩ := ih nxt _ rg st u l (by simp [sExe] at hsz; omega) hmem hu
      exact ⟨"positioned " ++ arg ++ " " ++ r, by rw [hr]; simp [String.append_assoc]⟩
    | Rotated arg nxt =>
      rw [Execute.compile_internal] at hmem
      obtain ⟨r, hr⟩ := ih nxt _ rg st u l (by simp [sExe] at hsz; omega) hmem hu
      exact ⟨"rotated " ++ arg ++ " " ++ r, by rw [hr]; simp [String.append_assoc]⟩
    | Store arg nxt =>
      rw [Execute.compile_internal] at hmem
      obtain ⟨r, hr⟩ := ih nxt _ rg st u l (by simp [sExe] at hsz; omega) hmem hu
      exact ⟨"store " ++ arg ++ " " ++ r, by rw [hr]; simp [String.append_assoc]⟩
    | Summon arg nxt =>
      rw [Execute.compile_internal] at hmem
      obtain ⟨r, hr⟩ := ih nxt _ true st u l (by simp [sExe] at hsz; omega) hmem hu
      exact ⟨"summon " ++ arg ++ " " ++ r, by rw [hr]; simp [String.append_assoc]⟩
    | If cond thn el =>
      rw [Execute.compile_internal, compile_if_cond, if_pos hpf] at hmem
      obtain ⟨l0, st', hshape⟩ := pre20_output_shape md5h opts cond thn el pfx st
      rw [hshape] at hmem
      exact apply_pfx_mem hmem hu
    | Run cmd =>
      cases cmd with
      | Execute ex =>
        rw [Execute.compile_internal] at hmem
        exact ih ex pfx rg st u l (by simp [sExe, sCmd] at hsz; omega) hmem hu
      | Raw s =>
        simp only [Execute.compile_internal] at hmem
        obtain ⟨c, _, heq⟩ := List.mem_map.mp hmem
        exact map_run_cmd_prefixed heq hu
      | Debug s =>
        simp only [Execute.compile_internal] at hmem
        obtain ⟨c, _, heq⟩ := List.mem_map.mp hmem
        exact map_run_cmd_prefixed heq hu
      | Group cs =>
        simp only [Execute.compile_internal] at hmem
        obtain ⟨c, _, heq⟩ := List.mem_map.mp hmem
        exact map_run_cmd_prefixed heq hu
      | Comment s =>
        simp only [Execute.compile_internal] at hmem
        obtain ⟨c, _, heq⟩ := List.mem_map.mp hmem
        exact map_run_cmd_prefixed heq hu
    | Runs cmds =>
      rw [Execute.compile_internal] at hmem
      split at hmem
      · obtain ⟨c, _, heq⟩ := List.mem_map.mp hmem
        exact map_run_cmd_prefixed heq hu
      · obtain ⟨c, _, heq⟩ := List.mem_map.mp hmem
        exact map_run_cmd_prefixed heq hu

/-- Whether an `Execute` is a bare `Run` (the special-cased root shape). -/
def is_run : Execute → Bool
  | .Run _ => true
  | _ => false

/-! ## Claims about the execute-chain compiler -/

/-- Claim C2, counterexample: the claim says every line compiled from a
non-`Run` root carries the `"execute "` prefix, but a root
`Runs([Comment "x"])` compiles to the single pass-through line `"#x"`,
which starts with no prefix at all (its `use_prefix` flag is false). -/
theorem C2_comment_line_unprefixed :
    (Execute.compile (fun _ => "") ⟨true, 48⟩ (.Runs [.Comment "x"])
        ⟨0, "main", "ns", []⟩).1 = ["#x"]
      ∧ is_run (.Runs [.Comment "x"]) = false
      ∧ ∀ r, "#x" ≠ "execute " ++ r := by
  refine ⟨?_, rfl, ?_⟩
  · simp [Execute.compile, Execute.compile_internal, compileList,
      Command.compile, map_run_cmd, startsWithHash, allWhitespace]
  · intro r h
    have h2 : ("#x").data = ("execute " ++ r).data := congrArg String.data h
    rw [String.data_append] at h2
    rw [show ("#x").data = ['#', 'x'] from rfl] at h2
    rw [show ("execute ").data = ['e', 'x', 'e', 'c', 'u', 't', 'e', ' '] from rfl] at h2
    simp at h2

/-- Claim C2, amended: a root `Run(cmd)` compiles exactly to the wrapped
command's lines with no prefix added; in the pre-threshold dialect
(`pack_format < 20`) every line flagged `use_prefix = true` carries the
accumulated prefix, and a non-`Run` root's lines either carry the
`"execute "` prefix or are pass-through lines flagged `use_prefix = false`
(comments, blanks, and the success-flag reset line). -/
theorem C2_run_passthrough_prefixed (md5h : String → String)
    (opts : CompileOptions) :
    (∀ cmd st, Execute.compile md5h opts (.Run cmd) st
      = Command.compile md5h opts cmd st)
    ∧ (opts.pack_format < 20 →
       ∀ e pfx rg st u l,
         (u, l) ∈ (Execute.compile_internal md5h opts e pfx rg st).1 →
         u = true → ∃ r, l = pfx ++ r)
    ∧ (opts.pack_format < 20 →
       ∀ e st, is_run e = false →
       ∀ l, l ∈ (Execute.compile md5h opts e st).1 →
         (∃ r, l = "execute " ++ r)
         ∨ (false, l) ∈ (Execute.compile_internal md5h opts e "execute " false st).1) := by
  refine ⟨?_, ?_, ?_⟩
  · intro cmd st
    conv_lhs => rw [Execute.compile]
  · intro hpf e pfx rg st u l hmem hu
    exact internal_prefix_pre20 md5h opts hpf (sExe e) e pfx rg st u l le_rfl hmem hu
  · intro hpf e st hrun l hl
    obtain ⟨ps, st1, hps⟩ :
        ∃ ps st1, Execute.compile_internal md5h opts e "execute " false st = (ps, st1) :=
      ⟨_, _, rfl⟩
    have hroot : (Execute.compile md5h opts e st).1 = ps.map (fun p => p.2) := by
      cases e <;> simp [is_run] at hrun <;> (rw [Execute.compile, hps]) <;> simp
    rw [hroot] at hl
    obtain ⟨⟨u, l'⟩, hmem, hl'⟩ := List.mem_map.mp hl
    dsimp at hl'
    subst hl'
    cases u with
    | false => exact Or.inr (by rw [hps]; exact hmem)
    | true =>
      exact Or.inl (internal_prefix_pre20 md5h opts hpf (sExe e) e _ false st _ _
        le_rfl (by rw [hps]; exact hmem) rfl)

/-- Witness for C2: the amended theorem applied to the concrete chain
`as @a → run say hi` under the pre-threshold dialect. -/
theorem C2_run_passthrough_prefixed_witness :
    ∃ r, "execute as @a run say hi" = "execute " ++ r := by
  have hmem : ((true : Bool), "execute as @a run say hi")
      ∈ (Execute.compile_internal (fun _ => "") ⟨true, 10⟩
          (.As "@a" (.Run (.Raw "say hi"))) "execute " false
          ⟨0, "main", "ns", []⟩).1 := by
    simp [Execute.compile_internal, Command.compile, map_run_cmd,
      startsWithHash, allWhitespace]
  exact (C2_run_passthrough_prefixed (fun _ => "") ⟨true, 10⟩).2.1
    (by decide) _ "execute " false ⟨0, "main", "ns", []⟩ true _ hmem rfl

/-- Claim C3, counterexample: a `Group` whose single child is itself a
`Group` of two commands has child-count sum exactly 1, so by the claim
nothing should be pushed onto the function worklist — but compiling it
inline pushes one hoisted function (for the nested group). -/
theorem C3_inline_group_still_pushes :
    getCountList (fun _ => "") ⟨true, 48⟩ [.Group [.Raw "say a", .Raw "say b"]] = 1
    ∧ ((compile_group (fun _ => "") ⟨true, 48⟩ [.Group [.Raw "say a", .Raw "say b"]]
        ⟨0, "main", "ns", []⟩).2.functions).length = 1 := by
  constructor
  · simp [getCountList, Command.get_count]
  · simp [compile_group, getCountList, Command.get_count, compileList,
      Command.compile, FState.request_uid, FState.add_function, strip_sb, take16,
      rawLineCount, nlCount]

/-- Claim C3, amended: when the children's counts sum to at most 1,
`compile_group` itself creates no callable unit — it is literally inline
compilation of the children (which may push functions of their own); when
the sum is 2 or more it pushes exactly one new function holding exactly the
children and returns exactly one call-reference line, consuming one uid. -/
theorem C3_group_hoist_threshold (md5h : String → String)
    (opts : CompileOptions) (cs : List Command) (st : FState) :
    (getCountList md5h opts cs ≤ 1 →
      compile_group md5h opts cs st = compileList md5h opts cs st)
    ∧ (2 ≤ getCountList md5h opts cs →
      compile_group md5h opts cs st =
        (["function " ++ st.nspace ++ ":" ++ ("sb/" ++ strip_sb st.path ++ "/"
            ++ take16 (md5h (strip_sb st.path ++ ":" ++ toString st.uid_counter)))],
         { st with
            uid_counter := st.uid_counter + 1,
            functions := st.functions ++
              [("sb/" ++ strip_sb st.path ++ "/"
                  ++ take16 (md5h (strip_sb st.path ++ ":" ++ toString st.uid_counter)),
                ⟨cs, "sb/" ++ strip_sb st.path ++ "/"
                  ++ take16 (md5h (strip_sb st.path ++ ":" ++ toString st.uid_counter)),
                  st.nspace⟩)] })) := by
  constructor
  · intro h
    rw [compile_group, if_neg (by omega)]
  · intro h
    rw [compile_group, if_pos (by omega)]
    rfl

/-- Witness for C3: both branches of the amended theorem at concrete
groups. -/
theorem C3_group_hoist_threshold_witness :
    compile_group (fun _ => "h") ⟨true, 48⟩ [.Raw "say a"] ⟨0, "main", "ns", []⟩
      = compileList (fun _ => "h") ⟨true, 48⟩ [.Raw "say a"] ⟨0, "main", "ns", []⟩
    ∧ compile_group (fun _ => "h") ⟨true, 48⟩ [.Raw "say a", .Raw "say b"]
        ⟨0, "main", "ns", []⟩
      = (["function ns:sb/main/h"],
         ⟨1, "main", "ns",
          [("sb/main/h", ⟨[.Raw "say a", .Raw "say b"], "sb/main/h", "ns"⟩)]⟩) := by
  constructor
  · exact (C3_group_hoist_threshold (fun _ => "h") ⟨true, 48⟩ [.Raw "say a"]
      ⟨0, "main", "ns", []⟩).1
      (by simp [getCountList, Command.get_count, rawLineCount, nlCount])
  · rw [(C3_group_hoist_threshold (fun _ => "h") ⟨true, 48⟩
      [.Raw "say a", .Raw "say b"] ⟨0, "main", "ns", []⟩).2
      (by simp [getCountList, Command.get_count, rawLineCount, nlCount])]
    simp [strip_sb, take16]

/-- Claim C4: the claim states that every Strategy A success-flag storage
key combines `"shulkerbox:cond"` with an md5-derived per-guard uid from a
freshly requested uid, explicitly including the case of a disjunctive
condition with no else branch and a single-line then branch.  In exactly
that case the code requests no uid at all (`require_grouping_uid` is
`None`) and falls back to the fixed key `"if_success"`, logging
`tracing::error!` — contradicting the code's own intent.  This theorem
evaluates that failing input: every storage key in the output is
`if_success`, and the returned state shows no uid was consumed and no md5
hash was taken (the result does not depend on the hash function). -/
theorem C4_if_success_fallback (md5h : String → String) :
    compile_pre_20_format md5h ⟨true, 10⟩ (.Or (.Atom "a") (.Atom "b"))
      (.Run (.Raw "say hi")) none "execute " ⟨0, "main", "ns", []⟩
    = ([(false, "data remove storage shulkerbox:cond if_success"),
        (true, "execute if a run data modify storage shulkerbox:cond if_success set value true"),
        (true, "execute if b run data modify storage shulkerbox:cond if_success set value true"),
        (true, "execute if data storage shulkerbox:cond \x7bif_success:1b\x7d run say hi"),
        (false, "data remove storage shulkerbox:cond if_success")],
       ⟨0, "main", "ns", []⟩) := by
  simp [compile_pre_20_format, pre20_rguid, pre20_then_part, pre20_else_part,
    pre20_each_or, pre20_successful_cond, pre20_reset, apply_pfx,
    success_cond_atom, Execute.get_count, Execute.compile_internal,
    Command.compile, Condition.compile, Condition.tt_atom_direct,
    Condition.tt_or_direct, Condition.tt_notAtom_direct, Condition.normalize,
    Condition.str_cond, combine_conditions_commands, map_run_cmd,
    startsWithHash, allWhitespace, rawLineCount, nlCount]

/-- Claim C9: `validate_raw_cmd` is containment, not overlap — when the
leading ascii-whitespace-separated verb is in the table, validation holds
iff the table range contains the whole queried range; an unknown verb or a
command with no verb validates unconditionally. -/
theorem C9_validate_raw_containment (cmd : String) (fs : Nat × Nat) :
    (∀ v s e, first_token cmd = some v → cmd_formats.lookup v = some (s, e) →
        (validate_raw_cmd cmd fs = true ↔ (s ≤ fs.1 ∧ e ≥ fs.2)))
    ∧ (∀ v, first_token cmd = some v → cmd_formats.lookup v = none →
        validate_raw_cmd cmd fs = true)
    ∧ (first_token cmd = none → validate_raw_cmd cmd fs = true) := by
  refine ⟨?_, ?_, ?_⟩
  · intro v s e h1 h2
    simp [validate_raw_cmd, h1, h2]
  · intro v h1 h2
    simp [validate_raw_cmd, h1, h2]
  · intro h1
    simp [validate_raw_cmd, h1]

/-- Witness for C9: `tag` (table range `4..=48`) validates against `6..=9`
and fails against `2..=5` (contained vs merely overlapping). -/
theorem C9_validate_raw_containment_witness :
    first_token "tag @s add foo" = some "tag"
    ∧ cmd_formats.lookup "tag" = some (4, 48)
    ∧ validate_raw_cmd "tag @s add foo" (6, 9) = true
    ∧ validate_raw_cmd "tag @s add foo" (2, 5) = false := by
  refine ⟨by decide, by decide, ?_, ?_⟩
  · exact ((C9_validate_raw_containment "tag @s add foo" (6, 9)).1 "tag" 4 48
      (by decide) (by decide)).mpr (by omega)
  · have h := (C9_validate_raw_containment "tag @s add foo" (2, 5)).1 "tag" 4 48
      (by decide) (by decide)
    rcases hv : validate_raw_cmd "tag @s add foo" (2, 5) with _ | _
    · rfl
    · have := h.mp hv
      omega

/-! ## Worklist drain termination (claim C8) -/

/-- Weight of a generated function: the weight of its command list. -/
def wFn (f : Func) : Nat := wCmds f.commands

theorem pre20_rguid_functions (md5h : String → String) (b : Bool) (k : Nat)
    (st : FState) : (pre20_rguid md5h b k st).2.functions = st.functions := by
  unfold pre20_rguid
  split
  · simp [FState.request_uid]
  · rfl

theorem exec_compile_snd_nonrun (md5h : String → String) (opts : CompileOptions)
    (e : Execute) (st : FState) (h : is_run e = false) :
    (Execute.compile md5h opts e st).2
      = (Execute.compile_internal md5h opts e "execute " false st).2 := by
  obtain ⟨ps, st1, hps⟩ :
      ∃ ps st1, Execute.compile_internal md5h opts e "execute " false st = (ps, st1) :=
    ⟨_, _, rfl⟩
  cases e <;> simp [is_run] at h <;> (rw [Execute.compile, hps]) <;> simp

/-- Push-bound: every function pushed onto the worklist during a compile
call weighs strictly less than the node being compiled.  Stated as one
package over all mutually recursive compile functions, by strong induction
on the primary termination measure. -/
theorem pushes_bound (md5h : String → String) (opts : CompileOptions) : ∀ n : Nat,
    (∀ c st, 8 * wCmd c < n →
      ∃ Δ, (Command.compile md5h opts c st).2.functions = st.functions ++ Δ
        ∧ ∀ pf ∈ Δ, wFn pf.2 < wCmd c)
    ∧ (∀ cs st, 8 * wCmds cs + 2 < n →
      ∃ Δ, (compileList md5h opts cs st).2.functions = st.functions ++ Δ
        ∧ ∀ pf ∈ Δ, wFn pf.2 < wCmds cs)
    ∧ (∀ cs st, 8 * wCmds cs + 6 < n →
      ∃ Δ, (compile_group md5h opts cs st).2.functions = st.functions ++ Δ
        ∧ ∀ pf ∈ Δ, wFn pf.2 < 1 + wCmds cs)
    ∧ (∀ e st, 8 * wExe e + 4 < n →
      ∃ Δ, (Execute.compile md5h opts e st).2.functions = st.functions ++ Δ
        ∧ ∀ pf ∈ Δ, wFn pf.2 < 1 + wExe e)
    ∧ (∀ e pfx rg st, 8 * wExe e + 1 < n →
      ∃ Δ, (Execute.compile_internal md5h opts e pfx rg st).2.functions = st.functions ++ Δ
        ∧ ∀ pf ∈ Δ, wFn pf.2 < 1 + wExe e)
    ∧ (∀ cond thn el pfx st, 8 * (3 + wExe thn + wOpt el) - 1 < n →
      ∃ Δ, (compile_if_cond md5h opts cond thn el pfx st).2.functions = st.functions ++ Δ
        ∧ ∀ pf ∈ Δ, wFn pf.2 < 2 + wExe thn + wOpt el)
    ∧ (∀ cond thn el pfx st, 8 * (3 + wExe thn + wOpt el) - 2 < n →
      ∃ Δ, (compile_pre_20_format md5h opts cond thn el pfx st).2.functions = st.functions ++ Δ
        ∧ ∀ pf ∈ Δ, wFn pf.2 < 2 + wExe thn + wOpt el)
    ∧ (∀ cond thn el pfx st, 8 * (3 + wExe thn + wOpt el) - 2 < n →
      ∃ Δ, (compile_since_20_format md5h opts cond thn el pfx st).2.functions = st.functions ++ Δ
        ∧ ∀ pf ∈ Δ, wFn pf.2 < 2 + wExe thn + wOpt el)
    ∧ (∀ rguid thn elp clen st, 8 * (2 + wExe thn) + 1 < n →
      ∃ Δ, (pre20_then_part md5h opts rguid thn elp clen st).2.functions = st.functions ++ Δ
        ∧ ∀ pf ∈ Δ, wFn pf.2 < 2 + wExe thn)
    ∧ (∀ rguid el st, 8 * wOpt el + 1 < n →
      ∃ Δ, (pre20_else_part md5h opts rguid el st).2.functions = st.functions ++ Δ
        ∧ ∀ pf ∈ Δ, wFn pf.2 < 1 + wOpt el)
    ∧ (∀ strs thn el pfx st, 8 * (2 + wExe thn + wOpt el) + 4 < n →
      ∃ Δ, (handle_return_group_case_since_20 md5h opts strs thn el pfx st).2.functions = st.functions ++ Δ
        ∧ ∀ pf ∈ Δ, wFn pf.2 < 2 + wExe thn + wOpt el)
    ∧ (∀ el pfx st, 8 * wExe el + 10 < n →
      ∃ Δ, (handle_else_since_20 md5h opts el pfx st).2.functions = st.functions ++ Δ
        ∧ ∀ pf ∈ Δ, wFn pf.2 < wExe el) := by
  intro n
  induction n with
  | zero =>
    refine ⟨?_, ?_, ?_, ?_, ?_, ?_, ?_, ?_, ?_, ?_, ?_, ?_⟩ <;> intros <;> omega
  | succ n ih =>
    obtain ⟨ihA, ihL, ihG, ihE, ihI, ihIf, ihP, ihS, ihTP, ihEP, ihH, ihHE⟩ := ih
    refine ⟨?_, ?_, ?_, ?_, ?_, ?_, ?_, ?_, ?_, ?_, ?_, ?_⟩
    -- A : Command.compile
    · intro c st hg
      cases c with
      | Raw s => exact ⟨[], by simp [Command.compile], by simp⟩
      | Debug s => exact ⟨[], by simp [Command.compile], by simp⟩
      | Comment s => exact ⟨[], by simp [Command.compile], by simp⟩
      | Execute e =>
        obtain ⟨Δ, h1, h2⟩ := ihE e st (by simp [wCmd] at hg; omega)
        refine ⟨Δ, ?_, ?_⟩
        · rw [Command.compile]; exact h1
        · intro pf hpf
          have := h2 pf hpf
          simp [wCmd]; omega
      | Group cs =>
        obtain ⟨Δ, h1, h2⟩ := ihG cs st (by simp [wCmd] at hg; omega)
        refine ⟨Δ, ?_, ?_⟩
        · rw [Command.compile]; exact h1
        · intro pf hpf
          have := h2 pf hpf
          simp [wCmd]; omega
    -- L : compileList
    · intro cs
      induction cs with
      | nil => intro st hg; exact ⟨[], by simp [compileList], by simp⟩
      | cons c rest ihrest =>
        intro st hg
        obtain ⟨l1, st1, h1⟩ :
            ∃ l1 st1, Command.compile md5h opts c st = (l1, st1) := ⟨_, _, rfl⟩
        obtain ⟨Δ1, hf1, hb1⟩ := ihA c st (by simp [wCmds] at hg; omega)
        obtain ⟨Δ2, hf2, hb2⟩ := ihrest st1 (by simp [wCmds] at hg ⊢; omega)
        rw [h1] at hf1
        refine ⟨Δ1 ++ Δ2, ?_, ?_⟩
        · obtain ⟨l2, st2, h2⟩ :
              ∃ l2 st2, compileList md5h opts rest st1 = (l2, st2) := ⟨_, _, rfl⟩
          rw [compileList]
          simp only [h1, h2]
          rw [h2] at hf2
          simp at hf1 hf2 ⊢
          rw [hf2, hf1, List.append_assoc]
        · intro pf hpf
          rcases List.mem_append.mp hpf with h | h
          · have := hb1 pf h
            simp [wCmds]; omega
          · have := hb2 pf h
            simp [wCmds]; omega
    -- G : compile_group
    · intro cs st hg
      rw [compile_group]
      split
      · refine ⟨[("sb/" ++ strip_sb st.path ++ "/"
            ++ take16 (md5h (strip_sb st.path ++ ":" ++ toString st.uid_counter)),
          ⟨cs, "sb/" ++ strip_sb st.path ++ "/"
            ++ take16 (md5h (strip_sb st.path ++ ":" ++ toString st.uid_counter)),
            st.nspace⟩)], ?_, ?_⟩
        · simp [FState.request_uid, FState.add_function]
        · intro pf hpf
          simp at hpf
          subst hpf
          simp [wFn]
      · obtain ⟨Δ, h1, h2⟩ := ihL cs st (by omega)
        exact ⟨Δ, h1, fun pf hpf => by have := h2 pf hpf; omega⟩
    -- E : Execute.compile
    · intro e st hg
      by_cases hr : is_run e = true
      · obtain ⟨cmd, rfl⟩ : ∃ cmd, e = .Run cmd := by
          cases e <;> simp [is_run] at hr <;> exact ⟨_, rfl⟩
        obtain ⟨Δ, h1, h2⟩ := ihA cmd st (by simp [wExe] at hg; omega)
        refine ⟨Δ, ?_, ?_⟩
        · rw [Execute.compile]; exact h1
        · intro pf hpf
          have := h2 pf hpf
          simp [wExe]; omega
      · have hr' : is_run e = false := by simpa using hr
        obtain ⟨Δ, h1, h2⟩ := ihI e "execute " false st (by omega)
        exact ⟨Δ, by rw [exec_compile_snd_nonrun md5h opts e st hr']; exact h1, h2⟩
    -- I : compile_internal
    · intro e pfx rg st hg
      cases e with
      | Align arg nxt =>
        obtain ⟨Δ, h1, h2⟩ := ihI nxt (pfx ++ "align " ++ arg ++ " ") rg st
          (by simp [wExe] at hg; omega)
        exact ⟨Δ, by rw [Execute.compile_internal]; exact h1,
          fun pf hpf => by have := h2 pf hpf; simp [wExe]; omega⟩
      | Anchored arg nxt =>
        obtain ⟨Δ, h1, h2⟩ := ihI nxt (pfx ++ "anchored " ++ arg ++ " ") rg st
          (by simp [wExe] at hg; omega)
        exact ⟨Δ, by rw [Execute.compile_internal]; exact h1,
          fun pf hpf => by have := h2 pf hpf; simp [wExe]; omega⟩
      | As arg nxt =>
        obtain ⟨Δ, h1, h2⟩ := ihI nxt (pfx ++ "as " ++ arg ++ " ") rg st
          (by simp [wExe] at hg; omega)
        exact ⟨Δ, by rw [Execute.compile_internal]; exact h1,
          fun pf hpf => by have := h2 pf hpf; simp [wExe]; omega⟩
      | At arg nxt =>
        obtain ⟨Δ, h1, h2⟩ := ihI nxt (pfx ++ "at " ++ arg ++ " ") rg st
          (by simp [wExe] at hg; omega)
        exact ⟨Δ, by rw [Execute.compile_internal]; exact h1,
          fun pf hpf => by have := h2 pf hpf; simp [wExe]; omega⟩
      | AsAt arg nxt =>
        obtain ⟨Δ, h1, h2⟩ := ihI nxt (pfx ++ "as " ++ arg ++ " at @s ") rg st
          (by simp [wExe] at hg; omega)
        exact ⟨Δ, by rw [Execute.compile_internal]; exact h1,
          fun pf hpf => by have := h2 pf hpf; simp [wExe]; omega⟩
      | Facing arg nxt =>
        obtain ⟨Δ, h1, h2⟩ := ihI nxt (pfx ++ "facing " ++ arg ++ " ") rg st
          (by simp [wExe] at hg; omega)
        exact ⟨Δ, by rw [Execute.compile_internal]; exact h1,
          fun pf hpf => by have := h2 pf hpf; simp [wExe]; omega⟩
      | In arg nxt =>
        obtain ⟨Δ, h1, h2⟩ := ihI nxt (pfx ++ "in " ++ arg ++ " ") rg st
          (by simp [wExe] at hg; omega)
        exact ⟨Δ, by rw [Execute.compile_internal]; exact h1,
          fun pf hpf => by have := h2 pf hpf; simp [wExe]; omega⟩
      | On arg nxt =>
        obtain ⟨Δ, h1, h2⟩ := ihI nxt (pfx ++ "on " ++ arg ++ " ") rg st
          (by simp [wExe] at hg; omega)
        exact ⟨Δ, by rw [Execute.compile_internal]; exact h1,
          fun pf hpf => by have := h2 pf hpf; simp [wExe]; omega⟩
      | Positioned arg nxt =>
        obtain ⟨Δ, h1, h2⟩ := ihI nxt (pfx ++ "positioned " ++ arg ++ " ") rg st
          (by simp [wExe] at hg; omega)
        exact ⟨Δ, by rw [Execute.compile_internal]; exact h1,
          fun pf hpf => by have := h2 pf hpf; simp [wExe]; omega⟩
      | Rotated arg nxt =>
        obtain ⟨Δ, h1, h2⟩ := ihI nxt (pfx ++ "rotated " ++ arg ++ " ") rg st
          (by simp [wExe] at hg; omega)
        exact ⟨Δ, by rw [Execute.compile_internal]; exact h1,
          fun pf hpf => by have := h2 pf hpf; simp [wExe]; omega⟩
      | Store arg nxt =>
        obtain ⟨Δ, h1, h2⟩ := ihI nxt (pfx ++ "store " ++ arg ++ " ") rg st
          (by simp [wExe] at hg; omega)
        exact ⟨Δ, by rw [Execute.compile_internal]; exact h1,
          fun pf hpf => by have := h2 pf hpf; simp [wExe]; omega⟩
      | Summon arg nxt =>
        obtain ⟨Δ, h1, h2⟩ := ihI nxt (pfx ++ "summon " ++ arg ++ " ") true st
          (by simp [wExe] at hg; omega)
        exact ⟨Δ, by rw [Execute.compile_internal]; exact h1,
          fun pf hpf => by have := h2 pf hpf; simp [wExe]; omega⟩
      | If cond thn el =>
        obtain ⟨Δ, h1, h2⟩ := ihIf cond thn el pfx st (by simp [wExe] at hg; omega)
        exact ⟨Δ, by rw [Execute.compile_internal]; exact h1,
          fun pf hpf => by have := h2 pf hpf; simp [wExe]; omega⟩
      | Run cmd =>
        cases cmd with
        | Execute ex =>
          obtain ⟨Δ, h1, h2⟩ := ihI ex pfx rg st (by simp [wExe, wCmd] at hg; omega)
          exact ⟨Δ, by rw [Execute.compile_internal]; exact h1,
            fun pf hpf => by have := h2 pf hpf; simp [wExe, wCmd]; omega⟩
        | Raw s =>
          obtain ⟨ls, st1, hc⟩ :
              ∃ ls st1, Command.compile md5h opts (.Raw s) st = (ls, st1) := ⟨_, _, rfl⟩
          obtain ⟨Δ, h1, h2⟩ := ihA (.Raw s) st (by simp [wExe] at hg; omega)
          rw [hc] at h1
          refine ⟨Δ, ?_, ?_⟩
          · simp only [Execute.compile_internal, hc]
            exact h1
          · intro pf hpf
            have := h2 pf hpf
            simp [wExe, wCmd] at this ⊢
            try omega
        | Debug s =>
          obtain ⟨ls, st1, hc⟩ :
              ∃ ls st1, Command.compile md5h opts (.Debug s) st = (ls, st1) := ⟨_, _, rfl⟩
          obtain ⟨Δ, h1, h2⟩ := ihA (.Debug s) st (by simp [wExe] at hg; omega)
          rw [hc] at h1
          refine ⟨Δ, ?_, ?_⟩
          · simp only [Execute.compile_internal, hc]
            exact h1
          · intro pf hpf
            have := h2 pf hpf
            simp [wExe, wCmd] at this ⊢
            try omega
        | Group cs =>
          obtain ⟨ls, st1, hc⟩ :
              ∃ ls st1, Command.compile md5h opts (.Group cs) st = (ls, st1) := ⟨_, _, rfl⟩
          obtain ⟨Δ, h1, h2⟩ := ihA (.Group cs) st (by simp [wExe, wCmd] at hg ⊢; omega)
          rw [hc] at h1
          refine ⟨Δ, ?_, ?_⟩
          · simp only [Execute.compile_internal, hc]
            exact h1
          · intro pf hpf
            have := h2 pf hpf
            simp [wExe, wCmd] at this ⊢
            try omega
        | Comment s =>
          obtain ⟨ls, st1, hc⟩ :
              ∃ ls st1, Command.compile md5h opts (.Comment s) st = (ls, st1) := ⟨_, _, rfl⟩
          obtain ⟨Δ, h1, h2⟩ := ihA (.Comment s) st (by simp [wExe] at hg; omega)
          rw [hc] at h1
          refine ⟨Δ, ?_, ?_⟩
          · simp only [Execute.compile_internal, hc]
            exact h1
          · intro pf hpf
            have := h2 pf hpf
            simp [wExe, wCmd] at this ⊢
            try omega
      | Runs cmds =>
        rw [Execute.compile_internal]
        by_cases hrg : rg = true
        · rw [if_pos hrg]
          obtain ⟨ls, st1, hc⟩ :
              ∃ ls st1, Command.compile md5h opts (.Group cmds) st = (ls, st1) := ⟨_, _, rfl⟩
          obtain ⟨Δ, h1, h2⟩ := ihA (.Group cmds) st (by simp [wExe, wCmd] at hg ⊢; omega)
          rw [hc] at h1
          refine ⟨Δ, ?_, ?_⟩
          · simp only [hc]
            exact h1
          · intro pf hpf
            have := h2 pf hpf
            simp [wExe, wCmd] at this ⊢
            try omega
        · rw [if_neg hrg]
          obtain ⟨ls, st1, hc⟩ :
              ∃ ls st1, compileList md5h opts cmds st = (ls, st1) := ⟨_, _, rfl⟩
          obtain ⟨Δ, h1, h2⟩ := ihL cmds st (by simp [wExe] at hg; omega)
          rw [hc] at h1
          refine ⟨Δ, ?_, ?_⟩
          · simp only [hc]
            exact h1
          · intro pf hpf
            have := h2 pf hpf
            simp [wExe]; omega
    -- If : compile_if_cond
    · intro cond thn el pfx st hg
      rw [compile_if_cond]
      split
      · exact ihP cond thn el pfx st (by omega)
      · exact ihS cond thn el pfx st (by omega)
    -- P20 : compile_pre_20_format
    · intro cond thn el pfx st hg
      obtain ⟨rguid, st1, hq⟩ :
          ∃ r s1, pre20_rguid md5h el.isSome (Execute.get_count md5h opts thn) st
            = (r, s1) := ⟨_, _, rfl⟩
      obtain ⟨tl, st2, ht⟩ :
          ∃ tl st2, pre20_then_part md5h opts rguid thn el.isSome
            cond.compile.length st1 = (tl, st2) := ⟨_, _, rfl⟩
      obtain ⟨ec, st3, he⟩ :
          ∃ ec st3, pre20_else_part md5h opts rguid el st2 = (ec, st3) := ⟨_, _, rfl⟩
      obtain ⟨Δ1, hf1, hb1⟩ := ihTP rguid thn el.isSome cond.compile.length st1
        (by omega)
      obtain ⟨Δ2, hf2, hb2⟩ := ihEP rguid el st2 (by omega)
      rw [ht] at hf1
      rw [he] at hf2
      have hqf : st1.functions = st.functions := by
        have h := pre20_rguid_functions md5h el.isSome
          (Execute.get_count md5h opts thn) st
        rw [hq] at h
        exact h
      refine ⟨Δ1 ++ Δ2, ?_, ?_⟩
      · rw [compile_pre_20_format]
        simp only [hq, ht, he]
        rw [hf2, hf1, hqf, List.append_assoc]
      · intro pf hpf
        rcases List.mem_append.mp hpf with h | h
        · have := hb1 pf h; omega
        · have := hb2 pf h; omega
    -- S20 : compile_since_20_format
    · intro cond thn el pfx st hg
      rw [compile_since_20_format]
      split
      · obtain ⟨gp, st1, hh⟩ :
            ∃ gp st1, handle_return_group_case_since_20 md5h opts cond.compile
              thn el pfx st = (gp, st1) := ⟨_, _, rfl⟩
        obtain ⟨Δ1, hf1, hb1⟩ := ihH cond.compile thn el pfx st (by omega)
        rw [hh] at hf1
        obtain ⟨gl, st2, hc⟩ :
            ∃ gl st2, Command.compile md5h opts (.Group gp.val) st1 = (gl, st2) :=
          ⟨_, _, rfl⟩
        obtain ⟨Δ2, hf2, hb2⟩ := ihA (.Group gp.val) st1
          (by have := gp.2; simp [wCmd] at this ⊢; omega)
        rw [hc] at hf2
        refine ⟨Δ1 ++ Δ2, ?_, ?_⟩
        · obtain ⟨gcs, hgc⟩ := gp
          simp only [hh, hc]
          simp only at hf1 hf2 ⊢
          rw [hf2, hf1, List.append_assoc]
        · intro pf hpf
          rcases List.mem_append.mp hpf with h | h
          · have := hb1 pf h; omega
          · have hx := hb2 pf h
            have hy := gp.2
            simp [wCmd] at hx
            omega
      · split
        · obtain ⟨gl, st1, hc⟩ :
              ∃ gl st1, Command.compile md5h opts (.Group (then_commands_of thn)) st
                = (gl, st1) := ⟨_, _, rfl⟩
          obtain ⟨Δ, h1, h2⟩ := ihA (.Group (then_commands_of thn)) st
            (by have := wCmds_then_commands_of thn; simp [wCmd] at this ⊢; omega)
          rw [hc] at h1
          refine ⟨Δ, ?_, ?_⟩
          · simp only [hc]
            exact h1
          · intro pf hpf
            have hx := h2 pf hpf
            have hy := wCmds_then_commands_of thn
            simp [wCmd] at hx
            omega
        · obtain ⟨ls, st1, hc⟩ :
              ∃ ls st1, Execute.compile_internal md5h opts thn "" false st = (ls, st1) :=
            ⟨_, _, rfl⟩
          obtain ⟨Δ, h1, h2⟩ := ihI thn "" false st (by omega)
          rw [hc] at h1
          refine ⟨Δ, ?_, ?_⟩
          · simp only [hc]
            exact h1
          · intro pf hpf
            have := h2 pf hpf
            omega
    -- TP : pre20_then_part
    · intro rguid thn elp clen st hg
      cases rguid with
      | none =>
        obtain ⟨Δ, h1, h2⟩ := ihI thn "" false st (by omega)
        exact ⟨Δ, by rw [pre20_then_part]; exact h1,
          fun pf hpf => by have := h2 pf hpf; omega⟩
      | some su =>
        obtain ⟨gl, st1, hc⟩ :
            ∃ gl st1, Command.compile md5h opts
              (.Group (then_commands_of thn ++ success_flag_cmd (elp && decide (clen ≤ 1)) su)) st
              = (gl, st1) := ⟨_, _, rfl⟩
        obtain ⟨Δ, h1, h2⟩ := ihA
          (.Group (then_commands_of thn ++ success_flag_cmd (elp && decide (clen ≤ 1)) su)) st
          (by
            have hw := wCmds_then_commands_of thn
            have hw2 := wCmds_success_flag_cmd (elp && decide (clen ≤ 1)) su
            simp [wCmd, wCmds_append, hw2]
            omega)
        rw [hc] at h1
        refine ⟨Δ, ?_, ?_⟩
        · rw [pre20_then_part]
          simp only [hc]
          exact h1
        · intro pf hpf
          have := h2 pf hpf
          have hw := wCmds_then_commands_of thn
          have hw2 := wCmds_success_flag_cmd (elp && decide (clen ≤ 1)) su
          simp [wCmd, wCmds_append, hw2] at this
          omega
    -- EP : pre20_else_part
    · intro rguid el st hg
      cases el with
      | none => exact ⟨[], by simp [pre20_else_part], by simp⟩
      | some e =>
        obtain ⟨ll, st1, hc⟩ :
            ∃ ll st1, Execute.compile_internal md5h opts e ""
              (decide ((Condition.Not (success_cond_atom (rguid.getD "if_success"))).compile.length > 1))
              st = (ll, st1) := ⟨_, _, rfl⟩
        obtain ⟨Δ, h1, h2⟩ := ihI e ""
          (decide ((Condition.Not (success_cond_atom (rguid.getD "if_success"))).compile.length > 1))
          st (by simp [wOpt] at hg; omega)
        rw [hc] at h1
        refine ⟨Δ, ?_, ?_⟩
        · rw [pre20_else_part]
          simp only [hc]
          exact h1
        · intro pf hpf
          have := h2 pf hpf
          simp [wOpt]
          omega
    -- HRG : handle_return_group_case_since_20
    · intro strs thn el pfx st hg
      obtain ⟨gl, st1, hc⟩ :
          ∃ gl st1, Command.compile md5h opts (.Group (then_commands_of thn)) st
            = (gl, st1) := ⟨_, _, rfl⟩
      obtain ⟨Δ1, hf1, hb1⟩ := ihA (.Group (then_commands_of thn)) st
        (by have := wCmds_then_commands_of thn; simp [wCmd] at this ⊢; omega)
      rw [hc] at hf1
      cases el with
      | none =>
        refine ⟨Δ1, ?_, ?_⟩
        · rw [handle_return_group_case_since_20]
          simp only [hc]
          exact hf1
        · intro pf hpf
          have hx := hb1 pf hpf
          have hy := wCmds_then_commands_of thn
          simp [wCmd] at hx
          omega
      | some e =>
        obtain ⟨ep, st2, hh⟩ :
            ∃ ep st2, handle_else_since_20 md5h opts e pfx st1 = (ep, st2) :=
          ⟨_, _, rfl⟩
        obtain ⟨Δ2, hf2, hb2⟩ := ihHE e pfx st1 (by simp [wOpt] at hg; omega)
        rw [hh] at hf2
        refine ⟨Δ1 ++ Δ2, ?_, ?_⟩
        · rw [handle_return_group_case_since_20]
          simp only [hc, hh]
          obtain ⟨ecs, hec⟩ := ep
          simp only at hf1 hf2 ⊢
          rw [hf2, hf1, List.append_assoc]
        · intro pf hpf
          rcases List.mem_append.mp hpf with h | h
          · have hx := hb1 pf h
            have hy := wCmds_then_commands_of thn
            simp [wCmd, wOpt] at hx ⊢
            omega
          · have := hb2 pf h
            simp [wOpt]
            omega
    -- HE : handle_else_since_20
    · intro el pfx st hg
      cases el with
      | If c2 t2 e2 =>
        obtain ⟨rp, st1, hh⟩ :
            ∃ rp st1, handle_return_group_case_since_20 md5h opts c2.compile
              t2 e2 pfx st = (rp, st1) := ⟨_, _, rfl⟩
        obtain ⟨Δ, h1, h2⟩ := ihH c2.compile t2 e2 pfx st
          (by simp [wExe] at hg; omega)
        rw [hh] at h1
        refine ⟨Δ, ?_, ?_⟩
        · rw [handle_else_since_20]
          simp only [hh]
          obtain ⟨cs, hcs⟩ := rp
          exact h1
        · intro pf hpf
          have := h2 pf hpf
          simp [wExe]
          omega
      | Run cmd =>
        cases cmd with
        | Execute ex =>
          cases ex with
          | If c2 t2 e2 =>
            obtain ⟨rp, st1, hh⟩ :
                ∃ rp st1, handle_return_group_case_since_20 md5h opts c2.compile
                  t2 e2 pfx st = (rp, st1) := ⟨_, _, rfl⟩
            obtain ⟨Δ, h1, h2⟩ := ihH c2.compile t2 e2 pfx st
              (by simp [wExe, wCmd] at hg; omega)
            rw [hh] at h1
            refine ⟨Δ, ?_, ?_⟩
            · rw [handle_else_since_20]
              simp only [hh]
              obtain ⟨cs, hcs⟩ := rp
              exact h1
            · intro pf hpf
              have := h2 pf hpf
              simp [wExe, wCmd]
              omega
          | Align a b => exact ⟨[], by simp [handle_else_since_20], by simp⟩
          | Anchored a b => exact ⟨[], by simp [handle_else_since_20], by simp⟩
          | As a b => exact ⟨[], by simp [handle_else_since_20], by simp⟩
          | At a b => exact ⟨[], by simp [handle_else_since_20], by simp⟩
          | AsAt a b => exact ⟨[], by simp [handle_else_since_20], by simp⟩
          | Facing a b => exact ⟨[], by simp [handle_else_since_20], by simp⟩
          | In a b => exact ⟨[], by simp [handle_else_since_20], by simp⟩
          | On a b => exact ⟨[], by simp [handle_else_since_20], by simp⟩
          | Positioned a b => exact ⟨[], by simp [handle_else_since_20], by simp⟩
          | Rotated a b => exact ⟨[], by simp [handle_else_since_20], by simp⟩
          | Store a b => exact ⟨[], by simp [handle_else_since_20], by simp⟩
          | Summon a b => exact ⟨[], by simp [handle_else_since_20], by simp⟩
          | Run c => exact ⟨[], by simp [handle_else_since_20], by simp⟩
          | Runs c => exact ⟨[], by simp [handle_else_since_20], by simp⟩
        | Raw s => exact ⟨[], by simp [handle_else_since_20], by simp⟩
        | Debug s => exact ⟨[], by simp [handle_else_since_20], by simp⟩
        | Group c => exact ⟨[], by simp [handle_else_since_20], by simp⟩
        | Comment s => exact ⟨[], by simp [handle_else_since_20], by simp⟩
      | Runs c => exact ⟨[], by simp [handle_else_since_20], by simp⟩
      | Align a b => exact ⟨[], by simp [handle_else_since_20], by simp⟩
      | Anchored a b => exact ⟨[], by simp [handle_else_since_20], by simp⟩
      | As a b => exact ⟨[], by simp [handle_else_since_20], by simp⟩
      | At a b => exact ⟨[], by simp [handle_else_since_20], by simp⟩
      | AsAt a b => exact ⟨[], by simp [handle_else_since_20], by simp⟩
      | Facing a b => exact ⟨[], by simp [handle_else_since_20], by simp⟩
      | In a b => exact ⟨[], by simp [handle_else_since_20], by simp⟩
      | On a b => exact ⟨[], by simp [handle_else_since_20], by simp⟩
      | Positioned a b => exact ⟨[], by simp [handle_else_since_20], by simp⟩
      | Rotated a b => exact ⟨[], by simp [handle_else_since_20], by simp⟩
      | Store a b => exact ⟨[], by simp [handle_else_since_20], by simp⟩
      | Summon a b => exact ⟨[], by simp [handle_else_since_20], by simp⟩

/-- `Function::compile`: compile the commands in sequence and join the
lines with newlines (the content of the emitted `.mcfunction` file). -/
def Func.compile (md5h : String → String) (opts : CompileOptions) (f : Func)
    (st : FState) : String × FState :=
  match compileList md5h opts f.commands st with
  | (ls, st') => (String.intercalate "\n" ls, st')

/-- One iteration of the `Namespace::compile` drain loop: pop `(p, f)`,
build the fresh per-function compiler state (uid 0, the popped path, the
namespace name, sharing the queue), compile, and return the content plus
the newly enqueued functions. -/
def compile_function_entry (md5h : String → String) (opts : CompileOptions)
    (ns_name p : String) (f : Func) : String × List (String × Func) :=
  match Func.compile md5h opts f ⟨0, p, ns_name, []⟩ with
  | (content, st') => (content, st'.functions)

/-- The worklist drain of `Namespace::compile` reaches the empty queue:
popping an entry and appending whatever its compilation pushes, repeatedly,
terminates. -/
inductive DrainTerminates (md5h : String → String) (opts : CompileOptions)
    (ns_name : String) : List (String × Func) → Prop where
  | nil : DrainTerminates md5h opts ns_name []
  | step {p : String} {f : Func} {rest : List (String × Func)} :
      DrainTerminates md5h opts ns_name
        (rest ++ (compile_function_entry md5h opts ns_name p f).2) →
      DrainTerminates md5h opts ns_name ((p, f) :: rest)

theorem entry_pushes_lt (md5h : String → String) (opts : CompileOptions)
    (ns_name p : String) (f : Func) :
    ∀ pf ∈ (compile_function_entry md5h opts ns_name p f).2, wFn pf.2 < wFn f := by
  intro pf hpf
  obtain ⟨Δ, h1, h2⟩ := (pushes_bound md5h opts (8 * wCmds f.commands + 3)).2.1
    f.commands ⟨0, p, ns_name, []⟩ (by omega)
  obtain ⟨ls, st', hc⟩ :
      ∃ ls st', compileList md5h opts f.commands ⟨0, p, ns_name, []⟩ = (ls, st') :=
    ⟨_, _, rfl⟩
  rw [hc] at h1
  unfold compile_function_entry Func.compile at hpf
  rw [hc] at hpf
  simp at h1 hpf
  rw [h1] at hpf
  exact h2 pf hpf

theorem C8_drain_terminates (md5h : String → String) (opts : CompileOptions)
    (ns_name : String) : ∀ q, DrainTerminates md5h opts ns_name q := by
  have hwf : WellFounded (fun a b : String × Func => wFn a.2 < wFn b.2) :=
    (measure fun a : String × Func => wFn a.2).wf
  have hcut := hwf.cutExpand
  suffices h : ∀ m : Multiset (String × Func), ∀ q : List (String × Func),
      (q : Multiset (String × Func)) = m → DrainTerminates md5h opts ns_name q by
    intro q
    exact h _ q rfl
  intro m
  induction m using hcut.induction with
  | _ m ihm =>
    intro q hq
    cases q with
    | nil => exact .nil
    | cons hd rest =>
      obtain ⟨p, f⟩ := hd
      subst hq
      refine .step (ihm _ ?_ _ rfl)
      have key : ∀ x' ∈ (↑(compile_function_entry md5h opts ns_name p f).2 :
          Multiset (String × Func)),
          (fun a b : String × Func => wFn a.2 < wFn b.2) x' (p, f) := by
        intro x' hx'
        exact entry_pushes_lt md5h opts ns_name p f x' (by simpa using hx')
      have hsingle : Relation.CutExpand
          (fun a b : String × Func => wFn a.2 < wFn b.2)
          (↑(compile_function_entry md5h opts ns_name p f).2) {(p, f)} :=
        Relation.cutExpand_singleton key
      have hstep := (Relation.cutExpand_add_left
        (↑rest : Multiset (String × Func))).mpr hsingle
      have e1 : (↑(rest ++ (compile_function_entry md5h opts ns_name p f).2) :
          Multiset (String × Func))
          = ↑rest + ↑(compile_function_entry md5h opts ns_name p f).2 := by
        simp
      have e2 : (↑((p, f) :: rest) : Multiset (String × Func))
          = ↑rest + {(p, f)} := by
        rw [← Multiset.cons_coe, ← Multiset.singleton_add, add_comm]
      rw [e1, e2]
      exact hstep

/-! ## Shape invariance of `get_count` (claim C7) -/

set_option maxRecDepth 8000
set_option maxHeartbeats 1000000

/-! ## Shape relations for the `get_count` analysis (claim C7) -/

/-- The attributes of an output line that the compiler re-inspects
downstream: newline count (`split('\n').count()` in `Command::get_count`
for `Raw`), the leading `'#'`, emptiness and all-whitespace-ness (the
`map_run_cmd` pass-through test). -/
def SRel (a b : String) : Prop :=
  nlCount a = nlCount b ∧ startsWithHash a = startsWithHash b ∧
  a.data.isEmpty = b.data.isEmpty ∧ allWhitespace a = allWhitespace b

/-- Two compiled `(use_prefix, line)` pairs with equal flags and
shape-related lines. -/
def PRel (p q : Bool × String) : Prop := p.1 = q.1 ∧ SRel p.2 q.2

/-- Pointwise `SRel` on plain line lists. -/
def SL (a b : List String) : Prop := List.Forall₂ SRel a b

/-- Pointwise `PRel` on flagged line lists. -/
def PL (a b : List (Bool × String)) : Prop := List.Forall₂ PRel a b

theorem SRel_rfl (a : String) : SRel a a := ⟨rfl, rfl, rfl, rfl⟩

theorem SL_rfl (l : List String) : SL l l := by
  induction l with
  | nil => exact List.Forall₂.nil
  | cons a l ih => exact List.Forall₂.cons (SRel_rfl a) ih

theorem PL_rfl (l : List (Bool × String)) : PL l l := by
  induction l with
  | nil => exact List.Forall₂.nil
  | cons a l ih => exact List.Forall₂.cons ⟨rfl, SRel_rfl a.2⟩ ih

theorem nlCount_append (a b : String) :
    nlCount (a ++ b) = nlCount a + nlCount b := by
  simp [nlCount, List.count_append]

theorem startsWithHash_append_left {a : String} (b : String)
    (h : a.data.isEmpty = false) : startsWithHash (a ++ b) = startsWithHash a := by
  unfold startsWithHash
  cases hd : a.data with
  | nil => simp [hd] at h
  | cons c l => simp [String.data_append, hd]

theorem allWhitespace_append (a b : String) :
    allWhitespace (a ++ b) = (allWhitespace a && allWhitespace b) := by
  simp [allWhitespace, List.all_append]

theorem isEmpty_append (a b : String) :
    (a ++ b).data.isEmpty = (a.data.isEmpty && b.data.isEmpty) := by
  cases h : a.data <;> simp [String.data_append, h]

/-- `SRel` is a congruence for string concatenation. -/
theorem SRel_app {a₁ a₂ b₁ b₂ : String} (ha : SRel a₁ a₂) (hb : SRel b₁ b₂) :
    SRel (a₁ ++ b₁) (a₂ ++ b₂) := by
  obtain ⟨h1, h2, h3, h4⟩ := ha
  obtain ⟨g1, g2, g3, g4⟩ := hb
  refine ⟨?_, ?_, ?_, ?_⟩
  · rw [nlCount_append, nlCount_append, h1, g1]
  · cases he : a₁.data.isEmpty with
    | true =>
      have he₂ : a₂.data.isEmpty = true := by rw [← h3, he]
      have hal : a₁ = "" := by
        cases a₁ with
        | mk d => cases d <;> simp_all
      have har : a₂ = "" := by
        cases a₂ with
        | mk d => cases d <;> simp_all
      subst hal har
      simpa using g2
    | false =>
      have he₂ : a₂.data.isEmpty = false := by rw [← h3, he]
      rw [startsWithHash_append_left b₁ he, startsWithHash_append_left b₂ he₂]
      exact h2
  · rw [isEmpty_append, isEmpty_append, h3, g3]
  · rw [allWhitespace_append, allWhitespace_append, h4, g4]

/-- Prepending the same string preserves `SRel`. -/
theorem SRel.pre (p : String) {b₁ b₂ : String} (hb : SRel b₁ b₂) :
    SRel (p ++ b₁) (p ++ b₂) := SRel_app (SRel_rfl p) hb

/-- Appending the same string preserves `SRel`. -/
theorem SRel.post (p : String) {b₁ b₂ : String} (hb : SRel b₁ b₂) :
    SRel (b₁ ++ p) (b₂ ++ p) := SRel_app hb (SRel_rfl p)

/-- Two strings with a shared non-whitespace literal head and newline-free
tails are shape-related: the template lemma for every state-derived line the
compiler builds. -/
theorem SRel.template {p : String} (hp : allWhitespace p = false)
    {a b : String} (ha : nlCount a = 0) (hb : nlCount b = 0) :
    SRel (p ++ a) (p ++ b) := by
  have hpe : p.data.isEmpty = false := by
    cases hd : p.data with
    | nil => simp [allWhitespace, hd] at hp
    | cons c l => simp
  refine ⟨?_, ?_, ?_, ?_⟩
  · rw [nlCount_append, nlCount_append, ha, hb]
  · rw [startsWithHash_append_left a hpe, startsWithHash_append_left b hpe]
  · rw [isEmpty_append, isEmpty_append, hpe]
    simp
  · rw [allWhitespace_append, allWhitespace_append, hp]
    simp

theorem nlCount_strip_sb {s : String} (h : nlCount s = 0) :
    nlCount (strip_sb s) = 0 := by
  unfold strip_sb
  split
  · have hle : List.count '\n' (List.drop 3 s.data) ≤ List.count '\n' s.data :=
      (List.drop_sublist 3 s.data).count_le '\n'
    simp only [nlCount] at h ⊢
    omega
  · exact h

theorem nlCount_take16 {s : String} (h : nlCount s = 0) :
    nlCount (take16 s) = 0 := by
  unfold take16
  have hle : List.count '\n' (List.take 16 s.data) ≤ List.count '\n' s.data :=
    (List.take_sublist 16 s.data).count_le '\n'
  simp only [nlCount] at h ⊢
  omega

/-! ### Relating commands -/

mutual

/-- Commands that the compiler cannot tell apart where line counts are
concerned: equal, or `Raw`/`Group` nodes whose string payloads are
shape-related. -/
inductive CmdRel : Command → Command → Prop where
  | raw {a b : String} : SRel a b → CmdRel (.Raw a) (.Raw b)
  | group {cs ds : List Command} : CmdsRel cs ds → CmdRel (.Group cs) (.Group ds)
  | refl (c : Command) : CmdRel c c

/-- Pointwise `CmdRel`. -/
inductive CmdsRel : List Command → List Command → Prop where
  | nil : CmdsRel [] []
  | cons {c d : Command} {cs ds : List Command} :
      CmdRel c d → CmdsRel cs ds → CmdsRel (c :: cs) (d :: ds)

end

theorem CmdsRel_rfl (cs : List Command) : CmdsRel cs cs := by
  induction cs with
  | nil => exact CmdsRel.nil
  | cons c cs ih => exact CmdsRel.cons (CmdRel.refl c) ih

theorem CmdsRel_app {a₁ a₂ b₁ b₂ : List Command}
    (ha : CmdsRel a₁ a₂) (hb : CmdsRel b₁ b₂) : CmdsRel (a₁ ++ b₁) (a₂ ++ b₂) := by
  induction a₁ generalizing a₂ with
  | nil => cases ha; simpa using hb
  | cons c cs ih =>
    cases ha with
    | cons hc hcs => exact CmdsRel.cons hc (ih hcs)

/-- Related commands have equal weights (`CmdRel` only varies `Raw` strings
and `Group` contents, which weigh pointwise the same). -/
theorem CmdRel_get_count (md5h : String → String) (opts : CompileOptions)
    {c d : Command} (h : CmdRel c d) :
    Command.get_count md5h opts c = Command.get_count md5h opts d := by
  cases h with
  | raw hs =>
    simp only [Command.get_count, rawLineCount]
    rw [hs.1]
  | group hg => simp [Command.get_count]
  | refl => rfl

theorem CmdsRel_get_count (md5h : String → String) (opts : CompileOptions)
    {cs ds : List Command} (h : CmdsRel cs ds) :
    getCountList md5h opts cs = getCountList md5h opts ds := by
  induction cs generalizing ds with
  | nil => cases h; rfl
  | cons c rest ih =>
    cases h with
    | cons hc hrest =>
      rw [getCountList, getCountList, CmdRel_get_count md5h opts hc, ih hrest]

/-! ### Congruence lemmas for the line-building helpers -/

theorem map_run_cmd_rel {s₁ s₂ : String} (pfx : String) (h : SRel s₁ s₂) :
    PRel ( map_run_cmd s₁ pfx) ( map_run_cmd s₂ pfx) := by
  obtain ⟨h1, h2, h3, h4⟩ := h
  unfold map_run_cmd
  by_cases hc : (startsWithHash s₁ || s₁.data.isEmpty || allWhitespace s₁) = true
  · have hc₂ : (startsWithHash s₂ || s₂.data.isEmpty || allWhitespace s₂) = true := by
      rw [← h2, ← h3, ← h4]; exact hc
    rw [if_pos hc, if_pos hc₂]
    exact ⟨rfl, h1, h2, h3, h4⟩
  · have hc₂ : ¬ (startsWithHash s₂ || s₂.data.isEmpty || allWhitespace s₂) = true := by
      rw [← h2, ← h3, ← h4]; exact hc
    rw [if_neg hc, if_neg hc₂]
    exact ⟨rfl, by
      rw [String.append_assoc, String.append_assoc]
      exact SRel.pre _ (SRel.pre "run " ⟨h1, h2, h3, h4⟩)⟩

theorem map_run_cmd_rel_list {l₁ l₂ : List String} (pfx : String) (h : SL l₁ l₂) :
    PL (l₁.map ( map_run_cmd · pfx)) (l₂.map ( map_run_cmd · pfx)) := by
  unfold SL at h
  unfold PL
  induction h with
  | nil => exact List.Forall₂.nil
  | cons hs _ ih =>
    simp only [List.map_cons]
    exact List.Forall₂.cons (map_run_cmd_rel pfx hs) ih

theorem SL_map_snd {l₁ l₂ : List (Bool × String)} (h : PL l₁ l₂) :
    SL (l₁.map (fun p => p.2)) (l₂.map (fun p => p.2)) := by
  unfold PL at h
  unfold SL
  induction h with
  | nil => exact List.Forall₂.nil
  | cons hp _ ih =>
    simp only [List.map_cons]
    exact List.Forall₂.cons hp.2 ih

theorem PL_combine {c₁ c₂ : List String} {l₁ l₂ : List (Bool × String)}
    (hc : SL c₁ c₂) (hl : PL l₁ l₂) :
    PL (combine_conditions_commands c₁ l₁) (combine_conditions_commands c₂ l₂) := by
  unfold combine_conditions_commands
  unfold SL at hc
  unfold PL at hl ⊢
  induction hc with
  | nil => exact List.Forall₂.nil
  | cons hcond _ ihc =>
    simp only [List.flatMap_cons]
    refine List.rel_append ?_ ihc
    clear ihc
    induction hl with
    | nil => exact List.Forall₂.nil
    | cons hp _ ihl =>
      simp only [List.map_cons]
      refine List.Forall₂.cons ⟨hp.1, ?_⟩ ihl
      simp only [hp.1]
      split
      · exact SRel_app (hcond.post " ") hp.2
      · exact hp.2

theorem PL_prefix_map {l₁ l₂ : List (Bool × String)} (pfx : String) (h : PL l₁ l₂) :
    PL (l₁.map fun p => (p.1, if p.1 then pfx ++ p.2 else p.2))
       (l₂.map fun p => (p.1, if p.1 then pfx ++ p.2 else p.2)) := by
  unfold PL at h ⊢
  induction h with
  | nil => exact List.Forall₂.nil
  | cons hp _ ih =>
    simp only [List.map_cons]
    refine List.Forall₂.cons ⟨hp.1, ?_⟩ ih
    simp only [hp.1]
    split
    · exact SRel.pre pfx hp.2
    · exact hp.2

theorem PL_apply_pfx {l₁ l₂ : List (Bool × String)} (pfx : String) (h : PL l₁ l₂) :
    PL (apply_pfx pfx l₁) (apply_pfx pfx l₂) := PL_prefix_map pfx h

theorem CmdsRel_raw_execute {l₁ l₂ : List (Bool × String)} (h : PL l₁ l₂) :
    CmdsRel (raw_execute_cmds l₁) (raw_execute_cmds l₂) := by
  unfold PL at h
  unfold raw_execute_cmds
  induction h with
  | nil => exact CmdsRel.nil
  | cons hp _ ih =>
    simp only [List.map_cons]
    exact CmdsRel.cons (CmdRel.raw (SRel.pre "execute " hp.2)) ih

theorem CmdsRel_success_flag {u₁ u₂ : String} (flag : Bool)
    (h₁ : nlCount u₁ = 0) (h₂ : nlCount u₂ = 0) :
    CmdsRel (success_flag_cmd flag u₁) (success_flag_cmd flag u₂) := by
  unfold success_flag_cmd
  split
  · refine CmdsRel.cons (CmdRel.raw ?_) CmdsRel.nil
    exact ((SRel.template (by decide) h₁ h₂).post " set value true")
  · exact CmdsRel.nil

/-- The single-clause compile of the positive success-flag atom. -/
theorem success_atom_compile (u : String) :
    (success_cond_atom u).compile
      = ["if " ++ ("data storage shulkerbox:cond \x7b" ++ u ++ ":1b\x7d")] := by
  simp [success_cond_atom, Condition.compile, Condition.tt_atom_direct,
    Condition.str_cond]

/-- The single-clause compile of the negated success-flag atom. -/
theorem success_atom_not_compile (u : String) :
    (Condition.Not (success_cond_atom u)).compile
      = ["unless " ++ ("data storage shulkerbox:cond \x7b" ++ u ++ ":1b\x7d")] := by
  simp [success_cond_atom, Condition.compile, Condition.tt_notAtom_direct,
    Condition.str_cond]

theorem SL_success_cond {u₁ u₂ : String} (h₁ : nlCount u₁ = 0) (h₂ : nlCount u₂ = 0) :
    SL (success_cond_atom u₁).compile (success_cond_atom u₂).compile := by
  rw [success_atom_compile, success_atom_compile]
  exact List.Forall₂.cons
    (SRel.pre "if " ((SRel.template (by decide) h₁ h₂).post ":1b\x7d"))
    List.Forall₂.nil

theorem SL_else_cond {u₁ u₂ : String} (h₁ : nlCount u₁ = 0) (h₂ : nlCount u₂ = 0) :
    SL (Condition.Not (success_cond_atom u₁)).compile
       (Condition.Not (success_cond_atom u₂)).compile := by
  rw [success_atom_not_compile, success_atom_not_compile]
  exact List.Forall₂.cons
    (SRel.pre "unless " ((SRel.template (by decide) h₁ h₂).post ":1b\x7d"))
    List.Forall₂.nil

/-! ### Clean states -/

/-- A compiler state whose path and namespace are newline-free: the
precondition under which the hoisted-call lines cannot corrupt downstream
line counting. -/
def CleanSt (st : FState) : Prop := nlCount st.path = 0 ∧ nlCount st.nspace = 0

/-- States agreeing on path and namespace. -/
def StEq (a b : FState) : Prop := a.path = b.path ∧ a.nspace = b.nspace

theorem StEq_rfl (st : FState) : StEq st st := ⟨rfl, rfl⟩

theorem StEq.trans {a b c : FState} (h1 : StEq a b) (h2 : StEq b c) : StEq a c :=
  ⟨h1.1.trans h2.1, h1.2.trans h2.2⟩

theorem StEq.clean {a b : FState} (h : StEq a b) (hb : CleanSt b) : CleanSt a :=
  ⟨h.1 ▸ hb.1, h.2 ▸ hb.2⟩

/-! ### More congruence helpers -/

theorem PL_true_pre (p : String) {l₁ l₂ : List String} (h : SL l₁ l₂) :
    PL (l₁.map fun s => (true, p ++ s)) (l₂.map fun s => (true, p ++ s)) := by
  unfold SL at h
  unfold PL
  induction h with
  | nil => exact List.Forall₂.nil
  | cons hs _ ih =>
    simp only [List.map_cons]
    exact List.Forall₂.cons ⟨rfl, SRel.pre p hs⟩ ih

theorem PL_true_id {l₁ l₂ : List String} (h : SL l₁ l₂) :
    PL (l₁.map fun s => (true, s)) (l₂.map fun s => (true, s)) := by
  unfold SL at h
  unfold PL
  induction h with
  | nil => exact List.Forall₂.nil
  | cons hs _ ih =>
    simp only [List.map_cons]
    exact List.Forall₂.cons ⟨rfl, hs⟩ ih

/-- The hoisted-group call lines of two clean compiles are shape-related. -/
theorem SRel_group_call {ns₁ ns₂ fp₁ fp₂ : String}
    (h₁ : nlCount ns₁ = 0) (h₂ : nlCount ns₂ = 0)
    (h₃ : nlCount fp₁ = 0) (h₄ : nlCount fp₂ = 0) :
    SRel ("function " ++ ns₁ ++ ":" ++ fp₁) ("function " ++ ns₂ ++ ":" ++ fp₂) := by
  have e₁ : "function " ++ ns₁ ++ ":" ++ fp₁ = "function " ++ (ns₁ ++ (":" ++ fp₁)) := by
    rw [String.append_assoc, String.append_assoc]
  have e₂ : "function " ++ ns₂ ++ ":" ++ fp₂ = "function " ++ (ns₂ ++ (":" ++ fp₂)) := by
    rw [String.append_assoc, String.append_assoc]
  rw [e₁, e₂]
  refine SRel.template (by decide) ?_ ?_
  · rw [nlCount_append, nlCount_append, h₁, h₃]
    decide
  · rw [nlCount_append, nlCount_append, h₂, h₄]
    decide

/-- The grouping-uid results of two runs of `pre20_rguid`: same someness,
newline-free hashes. -/
def RgRel (a b : Option String) : Prop :=
  (a = none ∧ b = none)
    ∨ (∃ u v, a = some u ∧ b = some v ∧ nlCount u = 0 ∧ nlCount v = 0)

theorem RgRel_getD_nl {r₁ r₂ : Option String} (h : RgRel r₁ r₂) :
    nlCount (r₁.getD "if_success") = 0 ∧ nlCount (r₂.getD "if_success") = 0 := by
  rcases h with ⟨rfl, rfl⟩ | ⟨u, v, rfl, rfl, hu, hv⟩
  · exact ⟨by decide, by decide⟩
  · exact ⟨hu, hv⟩

theorem pre20_each_or_isSome (strs : List String) (r : Option String) :
    (pre20_each_or strs r).isSome = decide (strs.length > 1) := by
  unfold pre20_each_or
  split <;> simp_all

theorem PL_pre20_reset (strs : List String) {r₁ r₂ : Option String}
    (h₁ : nlCount (r₁.getD "if_success") = 0)
    (h₂ : nlCount (r₂.getD "if_success") = 0) (elp : Bool) :
    PL (pre20_reset strs r₁ elp).toList (pre20_reset strs r₂ elp).toList := by
  unfold pre20_reset
  rw [pre20_each_or_isSome, pre20_each_or_isSome]
  split
  · exact List.Forall₂.cons ⟨rfl, SRel.template (by decide) h₁ h₂⟩ List.Forall₂.nil
  · exact List.Forall₂.nil

theorem PL_pre20_each_or (strs : List String) {r₁ r₂ : Option String}
    (h₁ : nlCount (r₁.getD "if_success") = 0)
    (h₂ : nlCount (r₂.getD "if_success") = 0) :
    PL (((pre20_each_or strs r₁).map (fun p => p.2)).getD [])
       (((pre20_each_or strs r₂).map (fun p => p.2)).getD []) := by
  unfold pre20_each_or
  split
  · simp only [Option.map_some', Option.getD_some]
    refine PL_combine (SL_rfl strs) ?_
    refine List.Forall₂.cons ⟨rfl, ?_⟩ List.Forall₂.nil
    exact (SRel.template (by decide) h₁ h₂).post " set value true"
  · exact List.Forall₂.nil

theorem SL_pre20_successful (strs : List String) {r₁ r₂ : Option String}
    (h₁ : nlCount (r₁.getD "if_success") = 0)
    (h₂ : nlCount (r₂.getD "if_success") = 0) :
    SL (pre20_successful_cond strs r₁) (pre20_successful_cond strs r₂) := by
  unfold pre20_successful_cond
  rw [pre20_each_or_isSome, pre20_each_or_isSome]
  split
  · exact SL_success_cond h₁ h₂
  · exact SL_rfl strs

theorem pre20_rguid_rel (md5h : String → String) (hm : ∀ s, nlCount (md5h s) = 0)
    (b : Bool) (k : Nat) (st₁ st₂ : FState) :
    RgRel (pre20_rguid md5h b k st₁).1 (pre20_rguid md5h b k st₂).1
      ∧ StEq (pre20_rguid md5h b k st₁).2 st₁
      ∧ StEq (pre20_rguid md5h b k st₂).2 st₂ := by
  unfold pre20_rguid
  split
  · refine ⟨Or.inr ⟨md5h (st₁.path ++ ":" ++ toString st₁.uid_counter),
      md5h (st₂.path ++ ":" ++ toString st₂.uid_counter), ?_, ?_, hm _, hm _⟩,
      ?_, ?_⟩ <;> simp [FState.request_uid, StEq]
  · exact ⟨Or.inl ⟨rfl, rfl⟩, StEq_rfl _, StEq_rfl _⟩

theorem exec_compile_fst_nonrun (md5h : String → String) (opts : CompileOptions)
    (e : Execute) (st : FState) (h : is_run e = false) :
    (Execute.compile md5h opts e st).1
      = (Execute.compile_internal md5h opts e "execute " false st).1.map
          (fun p => p.2) := by
  obtain ⟨ps, st1, hps⟩ :
      ∃ ps st1, Execute.compile_internal md5h opts e "execute " false st = (ps, st1) :=
    ⟨_, _, rfl⟩
  cases e <;> simp [is_run] at h <;> (rw [Execute.compile, hps]) <;> simp

/-- The hoisted function path is newline-free when path and hash are. -/
theorem nl_fpath {p : String} (hp : nlCount p = 0) (h : String)
    (hh : nlCount h = 0) :
    nlCount ("sb/" ++ strip_sb p ++ "/" ++ take16 h) = 0 := by
  rw [nlCount_append, nlCount_append, nlCount_append, nlCount_strip_sb hp,
    nlCount_take16 hh]
  decide

/-- Shape equivalence: compiling the same input under two clean states
(newline-free path and namespace) yields pointwise shape-related output
lines — in particular, equally many of them — and both runs preserve their
state's path and namespace.  One package over all mutually recursive
compile functions, by strong induction on the primary termination
measure. -/
theorem shape_eq (md5h : String → String) (opts : CompileOptions)
    (hm : ∀ s, nlCount (md5h s) = 0) : ∀ n : Nat,
    (∀ c₁ c₂ st₁ st₂, CmdRel c₁ c₂ → CleanSt st₁ → CleanSt st₂ →
      8 * wCmd c₁ < n →
      SL (Command.compile md5h opts c₁ st₁).1 (Command.compile md5h opts c₂ st₂).1
        ∧ StEq (Command.compile md5h opts c₁ st₁).2 st₁
        ∧ StEq (Command.compile md5h opts c₂ st₂).2 st₂)
    ∧ (∀ cs₁ cs₂ st₁ st₂, CmdsRel cs₁ cs₂ → CleanSt st₁ → CleanSt st₂ →
      8 * wCmds cs₁ + 2 < n →
      SL (compileList md5h opts cs₁ st₁).1 (compileList md5h opts cs₂ st₂).1
        ∧ StEq (compileList md5h opts cs₁ st₁).2 st₁
        ∧ StEq (compileList md5h opts cs₂ st₂).2 st₂)
    ∧ (∀ cs₁ cs₂ st₁ st₂, CmdsRel cs₁ cs₂ → CleanSt st₁ → CleanSt st₂ →
      8 * wCmds cs₁ + 6 < n →
      SL (compile_group md5h opts cs₁ st₁).1 (compile_group md5h opts cs₂ st₂).1
        ∧ StEq (compile_group md5h opts cs₁ st₁).2 st₁
        ∧ StEq (compile_group md5h opts cs₂ st₂).2 st₂)
    ∧ (∀ e st₁ st₂, CleanSt st₁ → CleanSt st₂ → 8 * wExe e + 4 < n →
      SL (Execute.compile md5h opts e st₁).1 (Execute.compile md5h opts e st₂).1
        ∧ StEq (Execute.compile md5h opts e st₁).2 st₁
        ∧ StEq (Execute.compile md5h opts e st₂).2 st₂)
    ∧ (∀ e pfx rg st₁ st₂, CleanSt st₁ → CleanSt st₂ → 8 * wExe e + 1 < n →
      PL (Execute.compile_internal md5h opts e pfx rg st₁).1
         (Execute.compile_internal md5h opts e pfx rg st₂).1
        ∧ StEq (Execute.compile_internal md5h opts e pfx rg st₁).2 st₁
        ∧ StEq (Execute.compile_internal md5h opts e pfx rg st₂).2 st₂)
    ∧ (∀ cond thn el pfx st₁ st₂, CleanSt st₁ → CleanSt st₂ →
      8 * (3 + wExe thn + wOpt el) - 1 < n →
      PL (compile_if_cond md5h opts cond thn el pfx st₁).1
         (compile_if_cond md5h opts cond thn el pfx st₂).1
        ∧ StEq (compile_if_cond md5h opts cond thn el pfx st₁).2 st₁
        ∧ StEq (compile_if_cond md5h opts cond thn el pfx st₂).2 st₂)
    ∧ (∀ cond thn el pfx st₁ st₂, CleanSt st₁ → CleanSt st₂ →
      8 * (3 + wExe thn + wOpt el) - 2 < n →
      PL (compile_pre_20_format md5h opts cond thn el pfx st₁).1
         (compile_pre_20_format md5h opts cond thn el pfx st₂).1
        ∧ StEq (compile_pre_20_format md5h opts cond thn el pfx st₁).2 st₁
        ∧ StEq (compile_pre_20_format md5h opts cond thn el pfx st₂).2 st₂)
    ∧ (∀ cond thn el pfx st₁ st₂, CleanSt st₁ → CleanSt st₂ →
      8 * (3 + wExe thn + wOpt el) - 2 < n →
      PL (compile_since_20_format md5h opts cond thn el pfx st₁).1
         (compile_since_20_format md5h opts cond thn el pfx st₂).1
        ∧ StEq (compile_since_20_format md5h opts cond thn el pfx st₁).2 st₁
        ∧ StEq (compile_since_20_format md5h opts cond thn el pfx st₂).2 st₂)
    ∧ (∀ r₁ r₂ thn elp clen st₁ st₂, RgRel r₁ r₂ → CleanSt st₁ → CleanSt st₂ →
      8 * (2 + wExe thn) + 1 < n →
      PL (pre20_then_part md5h opts r₁ thn elp clen st₁).1
         (pre20_then_part md5h opts r₂ thn elp clen st₂).1
        ∧ StEq (pre20_then_part md5h opts r₁ thn elp clen st₁).2 st₁
        ∧ StEq (pre20_then_part md5h opts r₂ thn elp clen st₂).2 st₂)
    ∧ (∀ r₁ r₂ el st₁ st₂, RgRel r₁ r₂ → CleanSt st₁ → CleanSt st₂ →
      8 * wOpt el + 1 < n →
      PL (pre20_else_part md5h opts r₁ el st₁).1
         (pre20_else_part md5h opts r₂ el st₂).1
        ∧ StEq (pre20_else_part md5h opts r₁ el st₁).2 st₁
        ∧ StEq (pre20_else_part md5h opts r₂ el st₂).2 st₂)
    ∧ (∀ strs₁ strs₂ thn el pfx st₁ st₂, SL strs₁ strs₂ → CleanSt st₁ → CleanSt st₂ →
      8 * (2 + wExe thn + wOpt el) + 4 < n →
      CmdsRel (handle_return_group_case_since_20 md5h opts strs₁ thn el pfx st₁).1.val
              (handle_return_group_case_since_20 md5h opts strs₂ thn el pfx st₂).1.val
        ∧ StEq (handle_return_group_case_since_20 md5h opts strs₁ thn el pfx st₁).2 st₁
        ∧ StEq (handle_return_group_case_since_20 md5h opts strs₂ thn el pfx st₂).2 st₂)
    ∧ (∀ el pfx st₁ st₂, CleanSt st₁ → CleanSt st₂ → 8 * wExe el + 10 < n →
      CmdsRel (handle_else_since_20 md5h opts el pfx st₁).1.val
              (handle_else_since_20 md5h opts el pfx st₂).1.val
        ∧ StEq (handle_else_since_20 md5h opts el pfx st₁).2 st₁
        ∧ StEq (handle_else_since_20 md5h opts el pfx st₂).2 st₂) := by
  intro n
  induction n with
  | zero =>
    refine ⟨?_, ?_, ?_, ?_, ?_, ?_, ?_, ?_, ?_, ?_, ?_, ?_⟩ <;> intros <;> omega
  | succ n ih =>
    obtain ⟨ihA, ihL, ihG, ihE, ihI, ihIf, ihP, ihS, ihTP, ihEP, ihH, ihHE⟩ := ih
    refine ⟨?_, ?_, ?_, ?_, ?_, ?_, ?_, ?_, ?_, ?_, ?_, ?_⟩
    -- A : Command.compile
    · intro c₁ c₂ st₁ st₂ hrel hc₁ hc₂ hg
      cases hrel with
      | raw hab =>
        refine ⟨?_, ?_, ?_⟩ <;> simp only [Command.compile]
        · exact List.Forall₂.cons hab List.Forall₂.nil
        · exact StEq_rfl _
        · exact StEq_rfl _
      | group hcds =>
        rename_i cs ds
        obtain ⟨h1, h2, h3⟩ := ihG cs ds st₁ st₂ hcds hc₁ hc₂
          (by simp [wCmd] at hg; omega)
        refine ⟨?_, ?_, ?_⟩ <;> simp only [Command.compile]
        · exact h1
        · exact h2
        · exact h3
      | refl =>
        cases c₁ with
        | Raw s =>
          refine ⟨?_, ?_, ?_⟩ <;> simp only [Command.compile]
          · exact SL_rfl _
          · exact StEq_rfl _
          · exact StEq_rfl _
        | Debug m =>
          refine ⟨?_, ?_, ?_⟩ <;> simp only [Command.compile]
          · exact SL_rfl _
          · exact StEq_rfl _
          · exact StEq_rfl _
        | Comment s =>
          refine ⟨?_, ?_, ?_⟩ <;> simp only [Command.compile]
          · exact SL_rfl _
          · exact StEq_rfl _
          · exact StEq_rfl _
        | Execute e =>
          obtain ⟨h1, h2, h3⟩ := ihE e st₁ st₂ hc₁ hc₂ (by simp [wCmd] at hg; omega)
          refine ⟨?_, ?_, ?_⟩ <;> simp only [Command.compile]
          · exact h1
          · exact h2
          · exact h3
        | Group cs =>
          obtain ⟨h1, h2, h3⟩ := ihG cs cs st₁ st₂ (CmdsRel_rfl cs) hc₁ hc₂
            (by simp [wCmd] at hg; omega)
          refine ⟨?_, ?_, ?_⟩ <;> simp only [Command.compile]
          · exact h1
          · exact h2
          · exact h3
    -- L : compileList
    · intro cs₁
      induction cs₁ with
      | nil =>
        intro cs₂ st₁ st₂ hrel hc₁ hc₂ hg
        cases hrel
        refine ⟨?_, ?_, ?_⟩ <;> simp only [compileList]
        · exact List.Forall₂.nil
        · exact StEq_rfl _
        · exact StEq_rfl _
      | cons c rest ihrest =>
        intro cs₂ st₁ st₂ hrel hc₁ hc₂ hg
        cases hrel with
        | cons hc hrest =>
          rename_i d ds
          obtain ⟨l1, s1, h1⟩ : ∃ l1 s1, Command.compile md5h opts c st₁ = (l1, s1) :=
            ⟨_, _, rfl⟩
          obtain ⟨l2, s2, h2⟩ : ∃ l2 s2, Command.compile md5h opts d st₂ = (l2, s2) :=
            ⟨_, _, rfl⟩
          obtain ⟨hA1, hA2, hA3⟩ := ihA c d st₁ st₂ hc hc₁ hc₂
            (by simp [wCmds] at hg; omega)
          rw [h1] at hA1 hA2
          rw [h2] at hA1 hA3
          obtain ⟨r1, t1, g1⟩ : ∃ r1 t1, compileList md5h opts rest s1 = (r1, t1) :=
            ⟨_, _, rfl⟩
          obtain ⟨r2, t2, g2⟩ : ∃ r2 t2, compileList md5h opts ds s2 = (r2, t2) :=
            ⟨_, _, rfl⟩
          obtain ⟨hL1, hL2, hL3⟩ := ihrest ds s1 s2 hrest (hA2.clean hc₁) (hA3.clean hc₂)
            (by simp [wCmds] at hg ⊢; omega)
          rw [g1] at hL1 hL2
          rw [g2] at hL1 hL3
          refine ⟨?_, ?_, ?_⟩ <;> simp only [compileList, h1, h2, g1, g2]
          · exact List.rel_append hA1 hL1
          · exact hL2.trans hA2
          · exact hL3.trans hA3
    -- G : compile_group
    · intro cs₁ cs₂ st₁ st₂ hrel hc₁ hc₂ hg
      have hgc : getCountList md5h opts cs₂ = getCountList md5h opts cs₁ :=
        (CmdsRel_get_count md5h opts hrel).symm
      rw [compile_group, compile_group, hgc]
      by_cases hgt : getCountList md5h opts cs₁ > 1
      · rw [if_pos hgt, if_pos hgt]
        simp only [FState.request_uid, FState.add_function]
        refine ⟨List.Forall₂.cons ?_ List.Forall₂.nil, ⟨rfl, rfl⟩, ⟨rfl, rfl⟩⟩
        exact SRel_group_call hc₁.2 hc₂.2
          (nl_fpath hc₁.1 _ (hm _)) (nl_fpath hc₂.1 _ (hm _))
      · rw [if_neg hgt, if_neg hgt]
        exact ihL cs₁ cs₂ st₁ st₂ hrel hc₁ hc₂ (by omega)
    -- E : Execute.compile
    · intro e st₁ st₂ hc₁ hc₂ hg
      by_cases hr : is_run e = true
      · obtain ⟨cmd, rfl⟩ : ∃ cmd, e = .Run cmd := by
          cases e <;> simp [is_run] at hr <;> exact ⟨_, rfl⟩
        obtain ⟨h1, h2, h3⟩ := ihA cmd cmd st₁ st₂ (CmdRel.refl cmd) hc₁ hc₂
          (by simp [wExe] at hg; omega)
        refine ⟨?_, ?_, ?_⟩
        · rw [Execute.compile, Execute.compile]; exact h1
        · rw [Execute.compile]; exact h2
        · rw [Execute.compile]; exact h3
      · have hr' : is_run e = false := by simpa using hr
        obtain ⟨h1, h2, h3⟩ := ihI e "execute " false st₁ st₂ hc₁ hc₂ (by omega)
        refine ⟨?_, ?_, ?_⟩
        · rw [exec_compile_fst_nonrun md5h opts e st₁ hr',
            exec_compile_fst_nonrun md5h opts e st₂ hr']
          exact SL_map_snd h1
        · rw [exec_compile_snd_nonrun md5h opts e st₁ hr']
          exact h2
        · rw [exec_compile_snd_nonrun md5h opts e st₂ hr']
          exact h3
    -- I : compile_internal
    · intro e pfx rg st₁ st₂ hc₁ hc₂ hg
      cases e with
      | Align arg nxt =>
        obtain ⟨h1, h2, h3⟩ := ihI nxt (pfx ++ "align " ++ arg ++ " ") rg st₁ st₂
          hc₁ hc₂ (by simp [wExe] at hg; omega)
        refine ⟨?_, ?_, ?_⟩ <;> simp only [Execute.compile_internal]
        · exact h1
        · exact h2
        · exact h3
      | Anchored arg nxt =>
        obtain ⟨h1, h2, h3⟩ := ihI nxt (pfx ++ "anchored " ++ arg ++ " ") rg st₁ st₂
          hc₁ hc₂ (by simp [wExe] at hg; omega)
        refine ⟨?_, ?_, ?_⟩ <;> simp only [Execute.compile_internal]
        · exact h1
        · exact h2
        · exact h3
      | As arg nxt =>
        obtain ⟨h1, h2, h3⟩ := ihI nxt (pfx ++ "as " ++ arg ++ " ") rg st₁ st₂
          hc₁ hc₂ (by simp [wExe] at hg; omega)
        refine ⟨?_, ?_, ?_⟩ <;> simp only [Execute.compile_internal]
        · exact h1
        · exact h2
        · exact h3
      | At arg nxt =>
        obtain ⟨h1, h2, h3⟩ := ihI nxt (pfx ++ "at " ++ arg ++ " ") rg st₁ st₂
          hc₁ hc₂ (by simp [wExe] at hg; omega)
        refine ⟨?_, ?_, ?_⟩ <;> simp only [Execute.compile_internal]
        · exact h1
        · exact h2
        · exact h3
      | AsAt arg nxt =>
        obtain ⟨h1, h2, h3⟩ := ihI nxt (pfx ++ "as " ++ arg ++ " at @s ") rg st₁ st₂
          hc₁ hc₂ (by simp [wExe] at hg; omega)
        refine ⟨?_, ?_, ?_⟩ <;> simp only [Execute.compile_internal]
        · exact h1
        · exact h2
        · exact h3
      | Facing arg nxt =>
        obtain ⟨h1, h2, h3⟩ := ihI nxt (pfx ++ "facing " ++ arg ++ " ") rg st₁ st₂
          hc₁ hc₂ (by simp [wExe] at hg; omega)
        refine ⟨?_, ?_, ?_⟩ <;> simp only [Execute.compile_internal]
        · exact h1
        · exact h2
        · exact h3
      | In arg nxt =>
        obtain ⟨h1, h2, h3⟩ := ihI nxt (pfx ++ "in " ++ arg ++ " ") rg st₁ st₂
          hc₁ hc₂ (by simp [wExe] at hg; omega)
        refine ⟨?_, ?_, ?_⟩ <;> simp only [Execute.compile_internal]
        · exact h1
        · exact h2
        · exact h3
      | On arg nxt =>
        obtain ⟨h1, h2, h3⟩ := ihI nxt (pfx ++ "on " ++ arg ++ " ") rg st₁ st₂
          hc₁ hc₂ (by simp [wExe] at hg; omega)
        refine ⟨?_, ?_, ?_⟩ <;> simp only [Execute.compile_internal]
        · exact h1
        · exact h2
        · exact h3
      | Positioned arg nxt =>
        obtain ⟨h1, h2, h3⟩ := ihI nxt (pfx ++ "positioned " ++ arg ++ " ") rg st₁ st₂
          hc₁ hc₂ (by simp [wExe] at hg; omega)
        refine ⟨?_, ?_, ?_⟩ <;> simp only [Execute.compile_internal]
        · exact h1
        · exact h2
        · exact h3
      | Rotated arg nxt =>
        obtain ⟨h1, h2, h3⟩ := ihI nxt (pfx ++ "rotated " ++ arg ++ " ") rg st₁ st₂
          hc₁ hc₂ (by simp [wExe] at hg; omega)
        refine ⟨?_, ?_, ?_⟩ <;> simp only [Execute.compile_internal]
        · exact h1
        · exact h2
        · exact h3
      | Store arg nxt =>
        obtain ⟨h1, h2, h3⟩ := ihI nxt (pfx ++ "store " ++ arg ++ " ") rg st₁ st₂
          hc₁ hc₂ (by simp [wExe] at hg; omega)
        refine ⟨?_, ?_, ?_⟩ <;> simp only [Execute.compile_internal]
        · exact h1
        · exact h2
        · exact h3
      | Summon arg nxt =>
        obtain ⟨h1, h2, h3⟩ := ihI nxt (pfx ++ "summon " ++ arg ++ " ") true st₁ st₂
          hc₁ hc₂ (by simp [wExe] at hg; omega)
        refine ⟨?_, ?_, ?_⟩ <;> simp only [Execute.compile_internal]
        · exact h1
        · exact h2
        · exact h3
      | If cond thn el =>
        obtain ⟨h1, h2, h3⟩ := ihIf cond thn el pfx st₁ st₂ hc₁ hc₂
          (by simp [wExe] at hg; omega)
        refine ⟨?_, ?_, ?_⟩ <;> simp only [Execute.compile_internal]
        · exact h1
        · exact h2
        · exact h3
      | Run cmd =>
        cases cmd with
        | Execute ex =>
          obtain ⟨h1, h2, h3⟩ := ihI ex pfx rg st₁ st₂ hc₁ hc₂
            (by simp [wExe, wCmd] at hg; omega)
          refine ⟨?_, ?_, ?_⟩ <;> simp only [Execute.compile_internal]
          · exact h1
          · exact h2
          · exact h3
        | Raw s =>
          obtain ⟨l1, s1, hq1⟩ :
              ∃ l1 s1, Command.compile md5h opts (.Raw s) st₁ = (l1, s1) :=
            ⟨_, _, rfl⟩
          obtain ⟨l2, s2, hq2⟩ :
              ∃ l2 s2, Command.compile md5h opts (.Raw s) st₂ = (l2, s2) :=
            ⟨_, _, rfl⟩
          obtain ⟨h1, h2, h3⟩ := ihA (.Raw s) (.Raw s) st₁ st₂
            (CmdRel.refl _) hc₁ hc₂ (by simp [wExe, wCmd] at hg ⊢; omega)
          rw [hq1] at h1 h2
          rw [hq2] at h1 h3
          refine ⟨?_, ?_, ?_⟩ <;> simp only [Execute.compile_internal, hq1, hq2]
          · exact map_run_cmd_rel_list pfx h1
          · exact h2
          · exact h3
        | Debug s =>
          obtain ⟨l1, s1, hq1⟩ :
              ∃ l1 s1, Command.compile md5h opts (.Debug s) st₁ = (l1, s1) :=
            ⟨_, _, rfl⟩
          obtain ⟨l2, s2, hq2⟩ :
              ∃ l2 s2, Command.compile md5h opts (.Debug s) st₂ = (l2, s2) :=
            ⟨_, _, rfl⟩
          obtain ⟨h1, h2, h3⟩ := ihA (.Debug s) (.Debug s) st₁ st₂
            (CmdRel.refl _) hc₁ hc₂ (by simp [wExe, wCmd] at hg ⊢; omega)
          rw [hq1] at h1 h2
          rw [hq2] at h1 h3
          refine ⟨?_, ?_, ?_⟩ <;> simp only [Execute.compile_internal, hq1, hq2]
          · exact map_run_cmd_rel_list pfx h1
          · exact h2
          · exact h3
        | Group cs =>
          obtain ⟨l1, s1, hq1⟩ :
              ∃ l1 s1, Command.compile md5h opts (.Group cs) st₁ = (l1, s1) :=
            ⟨_, _, rfl⟩
          obtain ⟨l2, s2, hq2⟩ :
              ∃ l2 s2, Command.compile md5h opts (.Group cs) st₂ = (l2, s2) :=
            ⟨_, _, rfl⟩
          obtain ⟨h1, h2, h3⟩ := ihA (.Group cs) (.Group cs) st₁ st₂
            (CmdRel.refl _) hc₁ hc₂ (by simp [wExe, wCmd] at hg ⊢; omega)
          rw [hq1] at h1 h2
          rw [hq2] at h1 h3
          refine ⟨?_, ?_, ?_⟩ <;> simp only [Execute.compile_internal, hq1, hq2]
          · exact map_run_cmd_rel_list pfx h1
          · exact h2
          · exact h3
        | Comment s =>
          obtain ⟨l1, s1, hq1⟩ :
              ∃ l1 s1, Command.compile md5h opts (.Comment s) st₁ = (l1, s1) :=
            ⟨_, _, rfl⟩
          obtain ⟨l2, s2, hq2⟩ :
              ∃ l2 s2, Command.compile md5h opts (.Comment s) st₂ = (l2, s2) :=
            ⟨_, _, rfl⟩
          obtain ⟨h1, h2, h3⟩ := ihA (.Comment s) (.Comment s) st₁ st₂
            (CmdRel.refl _) hc₁ hc₂ (by simp [wExe, wCmd] at hg ⊢; omega)
          rw [hq1] at h1 h2
          rw [hq2] at h1 h3
          refine ⟨?_, ?_, ?_⟩ <;> simp only [Execute.compile_internal, hq1, hq2]
          · exact map_run_cmd_rel_list pfx h1
          · exact h2
          · exact h3
      | Runs cmds =>
        rw [Execute.compile_internal, Execute.compile_internal]
        by_cases hrg : rg = true
        · rw [if_pos hrg, if_pos hrg]
          obtain ⟨l1, s1, hq1⟩ :
              ∃ l1 s1, Command.compile md5h opts (.Group cmds) st₁ = (l1, s1) :=
            ⟨_, _, rfl⟩
          obtain ⟨l2, s2, hq2⟩ :
              ∃ l2 s2, Command.compile md5h opts (.Group cmds) st₂ = (l2, s2) :=
            ⟨_, _, rfl⟩
          obtain ⟨h1, h2, h3⟩ := ihA (.Group cmds) (.Group cmds) st₁ st₂
            (CmdRel.refl _) hc₁ hc₂ (by simp [wExe, wCmd] at hg ⊢; omega)
          rw [hq1] at h1 h2
          rw [hq2] at h1 h3
          refine ⟨?_, ?_, ?_⟩ <;> simp only [hq1, hq2]
          · exact map_run_cmd_rel_list pfx h1
          · exact h2
          · exact h3
        · rw [if_neg hrg, if_neg hrg]
          obtain ⟨l1, s1, hq1⟩ :
              ∃ l1 s1, compileList md5h opts cmds st₁ = (l1, s1) := ⟨_, _, rfl⟩
          obtain ⟨l2, s2, hq2⟩ :
              ∃ l2 s2, compileList md5h opts cmds st₂ = (l2, s2) := ⟨_, _, rfl⟩
          obtain ⟨h1, h2, h3⟩ := ihL cmds cmds st₁ st₂ (CmdsRel_rfl _) hc₁ hc₂
            (by simp [wExe] at hg; omega)
          rw [hq1] at h1 h2
          rw [hq2] at h1 h3
          refine ⟨?_, ?_, ?_⟩ <;> simp only [hq1, hq2]
          · exact map_run_cmd_rel_list pfx h1
          · exact h2
          · exact h3
    -- If : compile_if_cond
    · intro cond thn el pfx st₁ st₂ hc₁ hc₂ hg
      rw [compile_if_cond, compile_if_cond]
      split
      · exact ihP cond thn el pfx st₁ st₂ hc₁ hc₂ (by omega)
      · exact ihS cond thn el pfx st₁ st₂ hc₁ hc₂ (by omega)
    -- P20 : compile_pre_20_format
    · intro cond thn el pfx st₁ st₂ hc₁ hc₂ hg
      obtain ⟨r₁, s1₁, hq1⟩ : ∃ r s, pre20_rguid md5h el.isSome
          (Execute.get_count md5h opts thn) st₁ = (r, s) := ⟨_, _, rfl⟩
      obtain ⟨r₂, s1₂, hq2⟩ : ∃ r s, pre20_rguid md5h el.isSome
          (Execute.get_count md5h opts thn) st₂ = (r, s) := ⟨_, _, rfl⟩
      have hrgl := pre20_rguid_rel md5h hm el.isSome
        (Execute.get_count md5h opts thn) st₁ st₂
      rw [hq1, hq2] at hrgl
      obtain ⟨hR, hS1, hS2⟩ := hrgl
      obtain ⟨tl₁, s2₁, ht1⟩ : ∃ tl s2, pre20_then_part md5h opts r₁ thn el.isSome
          cond.compile.length s1₁ = (tl, s2) := ⟨_, _, rfl⟩
      obtain ⟨tl₂, s2₂, ht2⟩ : ∃ tl s2, pre20_then_part md5h opts r₂ thn el.isSome
          cond.compile.length s1₂ = (tl, s2) := ⟨_, _, rfl⟩
      obtain ⟨hT1, hT2, hT3⟩ := ihTP r₁ r₂ thn el.isSome cond.compile.length s1₁ s1₂
        hR (hS1.clean hc₁) (hS2.clean hc₂) (by omega)
      rw [ht1] at hT1 hT2
      rw [ht2] at hT1 hT3
      obtain ⟨ec₁, s3₁, he1⟩ : ∃ ec s3, pre20_else_part md5h opts r₁ el s2₁ = (ec, s3) :=
        ⟨_, _, rfl⟩
      obtain ⟨ec₂, s3₂, he2⟩ : ∃ ec s3, pre20_else_part md5h opts r₂ el s2₂ = (ec, s3) :=
        ⟨_, _, rfl⟩
      obtain ⟨hE1, hE2, hE3⟩ := ihEP r₁ r₂ el s2₁ s2₂ hR
        (hT2.clean (hS1.clean hc₁)) (hT3.clean (hS2.clean hc₂)) (by omega)
      rw [he1] at hE1 hE2
      rw [he2] at hE1 hE3
      obtain ⟨hgd1, hgd2⟩ := RgRel_getD_nl hR
      refine ⟨?_, ?_, ?_⟩ <;>
        simp only [compile_pre_20_format, hq1, hq2, ht1, ht2, he1, he2]
      · refine PL_apply_pfx pfx ?_
        refine List.rel_append ?_ (PL_pre20_reset _ hgd1 hgd2 _)
        refine List.rel_append ?_ hE1
        refine List.rel_append ?_ (PL_combine (SL_pre20_successful _ hgd1 hgd2) hT1)
        exact List.rel_append (PL_pre20_reset _ hgd1 hgd2 _) (PL_pre20_each_or _ hgd1 hgd2)
      · exact (hE2.trans hT2).trans hS1
      · exact (hE3.trans hT3).trans hS2
    -- S20 : compile_since_20_format
    · intro cond thn el pfx st₁ st₂ hc₁ hc₂ hg
      rw [compile_since_20_format, compile_since_20_format]
      split
      · obtain ⟨gp₁, t1, hh1⟩ : ∃ gp t, handle_return_group_case_since_20 md5h opts
            cond.compile thn el pfx st₁ = (gp, t) := ⟨_, _, rfl⟩
        obtain ⟨gp₂, t2, hh2⟩ : ∃ gp t, handle_return_group_case_since_20 md5h opts
            cond.compile thn el pfx st₂ = (gp, t) := ⟨_, _, rfl⟩
        obtain ⟨hH1, hH2, hH3⟩ := ihH cond.compile cond.compile thn el pfx st₁ st₂
          (SL_rfl _) hc₁ hc₂ (by omega)
        rw [hh1] at hH1 hH2
        rw [hh2] at hH1 hH3
        obtain ⟨g1, hb1⟩ := gp₁
        obtain ⟨g2, hb2⟩ := gp₂
        obtain ⟨l1, u1, hcg1⟩ : ∃ l u, Command.compile md5h opts (.Group g1) t1
            = (l, u) := ⟨_, _, rfl⟩
        obtain ⟨l2, u2, hcg2⟩ : ∃ l u, Command.compile md5h opts (.Group g2) t2
            = (l, u) := ⟨_, _, rfl⟩
        obtain ⟨hA1, hA2, hA3⟩ := ihA (.Group g1) (.Group g2) t1 t2
          (CmdRel.group hH1) (hH2.clean hc₁) (hH3.clean hc₂)
          (by have := hb1; simp [wCmd] at this ⊢; omega)
        rw [hcg1] at hA1 hA2
        rw [hcg2] at hA1 hA3
        refine ⟨?_, ?_, ?_⟩ <;> simp only [hh1, hh2, hcg1, hcg2]
        · exact PL_true_id hA1
        · exact hA2.trans hH2
        · exact hA3.trans hH3
      · split
        · obtain ⟨l1, u1, hcg1⟩ : ∃ l u, Command.compile md5h opts
              (.Group (then_commands_of thn)) st₁ = (l, u) := ⟨_, _, rfl⟩
          obtain ⟨l2, u2, hcg2⟩ : ∃ l u, Command.compile md5h opts
              (.Group (then_commands_of thn)) st₂ = (l, u) := ⟨_, _, rfl⟩
          obtain ⟨hA1, hA2, hA3⟩ := ihA (.Group (then_commands_of thn))
            (.Group (then_commands_of thn)) st₁ st₂ (CmdRel.refl _) hc₁ hc₂
            (by have := wCmds_then_commands_of thn; simp [wCmd] at this ⊢; omega)
          rw [hcg1] at hA1 hA2
          rw [hcg2] at hA1 hA3
          refine ⟨?_, ?_, ?_⟩ <;> simp only [hcg1, hcg2]
          · exact PL_prefix_map pfx (PL_combine (SL_rfl _) (PL_true_pre "run " hA1))
          · exact hA2
          · exact hA3
        · obtain ⟨l1, u1, hq1⟩ : ∃ l u, Execute.compile_internal md5h opts thn ""
              false st₁ = (l, u) := ⟨_, _, rfl⟩
          obtain ⟨l2, u2, hq2⟩ : ∃ l u, Execute.compile_internal md5h opts thn ""
              false st₂ = (l, u) := ⟨_, _, rfl⟩
          obtain ⟨h1, h2, h3⟩ := ihI thn "" false st₁ st₂ hc₁ hc₂ (by omega)
          rw [hq1] at h1 h2
          rw [hq2] at h1 h3
          refine ⟨?_, ?_, ?_⟩ <;> simp only [hq1, hq2]
          · exact PL_prefix_map pfx (PL_combine (SL_rfl _) h1)
          · exact h2
          · exact h3
    -- TP : pre20_then_part
    · intro r₁ r₂ thn elp clen st₁ st₂ hR hc₁ hc₂ hg
      rcases hR with ⟨rfl, rfl⟩ | ⟨u₁, u₂, rfl, rfl, hu₁, hu₂⟩
      · obtain ⟨h1, h2, h3⟩ := ihI thn "" false st₁ st₂ hc₁ hc₂ (by omega)
        refine ⟨?_, ?_, ?_⟩ <;> simp only [pre20_then_part]
        · exact h1
        · exact h2
        · exact h3
      · obtain ⟨gl₁, s1, hq1⟩ : ∃ gl s, Command.compile md5h opts
            (.Group (then_commands_of thn
              ++ success_flag_cmd (elp && decide (clen ≤ 1)) u₁)) st₁ = (gl, s) :=
          ⟨_, _, rfl⟩
        obtain ⟨gl₂, s2, hq2⟩ : ∃ gl s, Command.compile md5h opts
            (.Group (then_commands_of thn
              ++ success_flag_cmd (elp && decide (clen ≤ 1)) u₂)) st₂ = (gl, s) :=
          ⟨_, _, rfl⟩
        obtain ⟨h1, h2, h3⟩ := ihA
          (.Group (then_commands_of thn
            ++ success_flag_cmd (elp && decide (clen ≤ 1)) u₁))
          (.Group (then_commands_of thn
            ++ success_flag_cmd (elp && decide (clen ≤ 1)) u₂)) st₁ st₂
          (CmdRel.group (CmdsRel_app (CmdsRel_rfl _)
            (CmdsRel_success_flag _ hu₁ hu₂))) hc₁ hc₂
          (by
            have hw := wCmds_then_commands_of thn
            have hw2 := wCmds_success_flag_cmd (elp && decide (clen ≤ 1)) u₁
            simp [wCmd, wCmds_append, hw2]
            omega)
        rw [hq1] at h1 h2
        rw [hq2] at h1 h3
        refine ⟨?_, ?_, ?_⟩ <;> simp only [pre20_then_part, hq1, hq2]
        · exact PL_true_pre "run " h1
        · exact h2
        · exact h3
    -- EP : pre20_else_part
    · intro r₁ r₂ el st₁ st₂ hR hc₁ hc₂ hg
      cases el with
      | none =>
        refine ⟨?_, ?_, ?_⟩ <;> simp only [pre20_else_part]
        · exact List.Forall₂.nil
        · exact StEq_rfl _
        · exact StEq_rfl _
      | some e =>
        obtain ⟨hgd1, hgd2⟩ := RgRel_getD_nl hR
        have hsl := SL_else_cond hgd1 hgd2
        have hlen : (Condition.Not (success_cond_atom (r₂.getD "if_success"))).compile.length
            = (Condition.Not (success_cond_atom (r₁.getD "if_success"))).compile.length :=
          (List.Forall₂.length_eq hsl).symm
        obtain ⟨l1, s1, hq1⟩ : ∃ l s, Execute.compile_internal md5h opts e ""
            (decide ((Condition.Not (success_cond_atom
              (r₁.getD "if_success"))).compile.length > 1)) st₁ = (l, s) := ⟨_, _, rfl⟩
        obtain ⟨l2, s2, hq2⟩ : ∃ l s, Execute.compile_internal md5h opts e ""
            (decide ((Condition.Not (success_cond_atom
              (r₁.getD "if_success"))).compile.length > 1)) st₂ = (l, s) := ⟨_, _, rfl⟩
        obtain ⟨h1, h2, h3⟩ := ihI e ""
          (decide ((Condition.Not (success_cond_atom
            (r₁.getD "if_success"))).compile.length > 1)) st₁ st₂ hc₁ hc₂
          (by simp [wOpt] at hg; omega)
        rw [hq1] at h1 h2
        rw [hq2] at h1 h3
        refine ⟨?_, ?_, ?_⟩ <;> simp only [pre20_else_part, hlen, hq1, hq2]
        · exact PL_combine hsl h1
        · exact h2
        · exact h3
    -- HRG : handle_return_group_case_since_20
    · intro strs₁ strs₂ thn el pfx st₁ st₂ hstrs hc₁ hc₂ hg
      obtain ⟨gl₁, t1, hcg1⟩ : ∃ gl t, Command.compile md5h opts
          (.Group (then_commands_of thn)) st₁ = (gl, t) := ⟨_, _, rfl⟩
      obtain ⟨gl₂, t2, hcg2⟩ : ∃ gl t, Command.compile md5h opts
          (.Group (then_commands_of thn)) st₂ = (gl, t) := ⟨_, _, rfl⟩
      obtain ⟨hA1, hA2, hA3⟩ := ihA (.Group (then_commands_of thn))
        (.Group (then_commands_of thn)) st₁ st₂ (CmdRel.refl _) hc₁ hc₂
        (by have := wCmds_then_commands_of thn; simp [wCmd] at this ⊢; omega)
      rw [hcg1] at hA1 hA2
      rw [hcg2] at hA1 hA3
      have hrelG : CmdsRel
          (raw_execute_cmds (combine_conditions_commands strs₁
            (gl₁.map fun s => (true, "run return run " ++ s))))
          (raw_execute_cmds (combine_conditions_commands strs₂
            (gl₂.map fun s => (true, "run return run " ++ s)))) :=
        CmdsRel_raw_execute (PL_combine hstrs (PL_true_pre "run return run " hA1))
      cases el with
      | none =>
        refine ⟨?_, ?_, ?_⟩ <;>
          simp only [handle_return_group_case_since_20, hcg1, hcg2]
        · exact hrelG
        · exact hA2
        · exact hA3
      | some e =>
        obtain ⟨ep₁, v1, hh1⟩ : ∃ ep v, handle_else_since_20 md5h opts e pfx t1
            = (ep, v) := ⟨_, _, rfl⟩
        obtain ⟨ep₂, v2, hh2⟩ : ∃ ep v, handle_else_since_20 md5h opts e pfx t2
            = (ep, v) := ⟨_, _, rfl⟩
        obtain ⟨hH1, hH2, hH3⟩ := ihHE e pfx t1 t2 (hA2.clean hc₁) (hA3.clean hc₂)
          (by simp [wOpt] at hg; omega)
        rw [hh1] at hH1 hH2
        rw [hh2] at hH1 hH3
        obtain ⟨ec1, hbe1⟩ := ep₁
        obtain ⟨ec2, hbe2⟩ := ep₂
        refine ⟨?_, ?_, ?_⟩ <;>
          simp only [handle_return_group_case_since_20, hcg1, hcg2, hh1, hh2]
        · exact CmdsRel_app hrelG hH1
        · exact hH2.trans hA2
        · exact hH3.trans hA3
    -- HE : handle_else_since_20
    · intro el pfx st₁ st₂ hc₁ hc₂ hg
      cases el with
      | If c2 t2 e2 =>
        obtain ⟨rp₁, v1, hh1⟩ : ∃ rp v, handle_return_group_case_since_20 md5h opts
            c2.compile t2 e2 pfx st₁ = (rp, v) := ⟨_, _, rfl⟩
        obtain ⟨rp₂, v2, hh2⟩ : ∃ rp v, handle_return_group_case_since_20 md5h opts
            c2.compile t2 e2 pfx st₂ = (rp, v) := ⟨_, _, rfl⟩
        obtain ⟨hH1, hH2, hH3⟩ := ihH c2.compile c2.compile t2 e2 pfx st₁ st₂
          (SL_rfl _) hc₁ hc₂ (by simp [wExe] at hg; omega)
        rw [hh1] at hH1 hH2
        rw [hh2] at hH1 hH3
        obtain ⟨cs1, hcs1⟩ := rp₁
        obtain ⟨cs2, hcs2⟩ := rp₂
        refine ⟨?_, ?_, ?_⟩ <;> simp only [handle_else_since_20, hh1, hh2]
        · exact hH1
        · exact hH2
        · exact hH3
      | Run cmd =>
        cases cmd with
        | Execute ex =>
          cases ex with
          | If c2 t2 e2 =>
            obtain ⟨rp₁, v1, hh1⟩ : ∃ rp v, handle_return_group_case_since_20 md5h opts
                c2.compile t2 e2 pfx st₁ = (rp, v) := ⟨_, _, rfl⟩
            obtain ⟨rp₂, v2, hh2⟩ : ∃ rp v, handle_return_group_case_since_20 md5h opts
                c2.compile t2 e2 pfx st₂ = (rp, v) := ⟨_, _, rfl⟩
            obtain ⟨hH1, hH2, hH3⟩ := ihH c2.compile c2.compile t2 e2 pfx st₁ st₂
              (SL_rfl _) hc₁ hc₂ (by simp [wExe, wCmd] at hg; omega)
            rw [hh1] at hH1 hH2
            rw [hh2] at hH1 hH3
            obtain ⟨cs1, hcs1⟩ := rp₁
            obtain ⟨cs2, hcs2⟩ := rp₂
            refine ⟨?_, ?_, ?_⟩ <;> simp only [handle_else_since_20, hh1, hh2]
            · exact hH1
            · exact hH2
            · exact hH3
          | Align a b =>
          refine ⟨?_, ?_, ?_⟩ <;> simp only [handle_else_since_20]
          · exact CmdsRel_rfl _
          · exact StEq_rfl _
          · exact StEq_rfl _
          | Anchored a b =>
          refine ⟨?_, ?_, ?_⟩ <;> simp only [handle_else_since_20]
          · exact CmdsRel_rfl _
          · exact StEq_rfl _
          · exact StEq_rfl _
          | As a b =>
          refine ⟨?_, ?_, ?_⟩ <;> simp only [handle_else_since_20]
          · exact CmdsRel_rfl _
          · exact StEq_rfl _
          · exact StEq_rfl _
          | At a b =>
          refine ⟨?_, ?_, ?_⟩ <;> simp only [handle_else_since_20]
          · exact CmdsRel_rfl _
          · exact StEq_rfl _
          · exact StEq_rfl _
          | AsAt a b =>
          refine ⟨?_, ?_, ?_⟩ <;> simp only [handle_else_since_20]
          · exact CmdsRel_rfl _
          · exact StEq_rfl _
          · exact StEq_rfl _
          | Facing a b =>
          refine ⟨?_, ?_, ?_⟩ <;> simp only [handle_else_since_20]
          · exact CmdsRel_rfl _
          · exact StEq_rfl _
          · exact StEq_rfl _
          | In a b =>
          refine ⟨?_, ?_, ?_⟩ <;> simp only [handle_else_since_20]
          · exact CmdsRel_rfl _
          · exact StEq_rfl _
          · exact StEq_rfl _
          | On a b =>
          refine ⟨?_, ?_, ?_⟩ <;> simp only [handle_else_since_20]
          · exact CmdsRel_rfl _
          · exact StEq_rfl _
          · exact StEq_rfl _
          | Positioned a b =>
          refine ⟨?_, ?_, ?_⟩ <;> simp only [handle_else_since_20]
          · exact CmdsRel_rfl _
          · exact StEq_rfl _
          · exact StEq_rfl _
          | Rotated a b =>
          refine ⟨?_, ?_, ?_⟩ <;> simp only [handle_else_since_20]
          · exact CmdsRel_rfl _
          · exact StEq_rfl _
          · exact StEq_rfl _
          | Store a b =>
          refine ⟨?_, ?_, ?_⟩ <;> simp only [handle_else_since_20]
          · exact CmdsRel_rfl _
          · exact StEq_rfl _
          · exact StEq_rfl _
          | Summon a b =>
          refine ⟨?_, ?_, ?_⟩ <;> simp only [handle_else_since_20]
          · exact CmdsRel_rfl _
          · exact StEq_rfl _
          · exact StEq_rfl _
          | Run c =>
          refine ⟨?_, ?_, ?_⟩ <;> simp only [handle_else_since_20]
          · exact CmdsRel_rfl _
          · exact StEq_rfl _
          · exact StEq_rfl _
          | Runs c =>
          refine ⟨?_, ?_, ?_⟩ <;> simp only [handle_else_since_20]
          · exact CmdsRel_rfl _
          · exact StEq_rfl _
          · exact StEq_rfl _
        | Raw s =>
        refine ⟨?_, ?_, ?_⟩ <;> simp only [handle_else_since_20]
        · exact CmdsRel_rfl _
        · exact StEq_rfl _
        · exact StEq_rfl _
        | Debug s =>
        refine ⟨?_, ?_, ?_⟩ <;> simp only [handle_else_since_20]
        · exact CmdsRel_rfl _
        · exact StEq_rfl _
        · exact StEq_rfl _
        | Comment s =>
        refine ⟨?_, ?_, ?_⟩ <;> simp only [handle_else_since_20]
        · exact CmdsRel_rfl _
        · exact StEq_rfl _
        · exact StEq_rfl _
        | Group c =>
        refine ⟨?_, ?_, ?_⟩ <;> simp only [handle_else_since_20]
        · exact CmdsRel_rfl _
        · exact StEq_rfl _
        · exact StEq_rfl _
      | Runs c =>
        refine ⟨?_, ?_, ?_⟩ <;> simp only [handle_else_since_20]
        · exact CmdsRel_rfl _
        · exact StEq_rfl _
        · exact StEq_rfl _
      | Align a b =>
        refine ⟨?_, ?_, ?_⟩ <;> simp only [handle_else_since_20]
        · exact CmdsRel_rfl _
        · exact StEq_rfl _
        · exact StEq_rfl _
      | Anchored a b =>
        refine ⟨?_, ?_, ?_⟩ <;> simp only [handle_else_since_20]
        · exact CmdsRel_rfl _
        · exact StEq_rfl _
        · exact StEq_rfl _
      | As a b =>
        refine ⟨?_, ?_, ?_⟩ <;> simp only [handle_else_since_20]
        · exact CmdsRel_rfl _
        · exact StEq_rfl _
        · exact StEq_rfl _
      | At a b =>
        refine ⟨?_, ?_, ?_⟩ <;> simp only [handle_else_since_20]
        · exact CmdsRel_rfl _
        · exact StEq_rfl _
        · exact StEq_rfl _
      | AsAt a b =>
        refine ⟨?_, ?_, ?_⟩ <;> simp only [handle_else_since_20]
        · exact CmdsRel_rfl _
        · exact StEq_rfl _
        · exact StEq_rfl _
      | Facing a b =>
        refine ⟨?_, ?_, ?_⟩ <;> simp only [handle_else_since_20]
        · exact CmdsRel_rfl _
        · exact StEq_rfl _
        · exact StEq_rfl _
      | In a b =>
        refine ⟨?_, ?_, ?_⟩ <;> simp only [handle_else_since_20]
        · exact CmdsRel_rfl _
        · exact StEq_rfl _
        · exact StEq_rfl _
      | On a b =>
        refine ⟨?_, ?_, ?_⟩ <;> simp only [handle_else_since_20]
        · exact CmdsRel_rfl _
        · exact StEq_rfl _
        · exact StEq_rfl _
      | Positioned a b =>
        refine ⟨?_, ?_, ?_⟩ <;> simp only [handle_else_since_20]
        · exact CmdsRel_rfl _
        · exact StEq_rfl _
        · exact StEq_rfl _
      | Rotated a b =>
        refine ⟨?_, ?_, ?_⟩ <;> simp only [handle_else_since_20]
        · exact CmdsRel_rfl _
        · exact StEq_rfl _
        · exact StEq_rfl _
      | Store a b =>
        refine ⟨?_, ?_, ?_⟩ <;> simp only [handle_else_since_20]
        · exact CmdsRel_rfl _
        · exact StEq_rfl _
        · exact StEq_rfl _
      | Summon a b =>
        refine ⟨?_, ?_, ?_⟩ <;> simp only [handle_else_since_20]
        · exact CmdsRel_rfl _
        · exact StEq_rfl _
        · exact StEq_rfl _

/-- Claim C7, counterexample: `Execute::get_count` measures the chain
against a fresh state whose path is `"[INTERNAL]"`, so for a caller state
whose path contains a newline the count disagrees with the actual
`compile_internal` output length: the hoisted-group call line
`function ns:sb/a\nb/…` counts as two raw lines during the nested
`get_count`, flipping the inner hoisting decision. -/
theorem C7_get_count_mismatch :
    Execute.get_count (fun _ => "") ⟨true, 48⟩
        (.If (.Atom "c") (.Runs [.Raw "x", .Raw "y"])
          (some (.Run (.Comment "z")))) = 2
    ∧ (Execute.compile_internal (fun _ => "") ⟨true, 48⟩
        (.If (.Atom "c") (.Runs [.Raw "x", .Raw "y"])
          (some (.Run (.Comment "z"))))
        "" false ⟨0, "a\nb", "ns", []⟩).1.length = 1 := by
  constructor
  · simp [Execute.get_count, Execute.compile_internal, compile_if_cond,
      compile_since_20_format, handle_return_group_case_since_20,
      handle_else_since_20, then_commands_of, raw_execute_cmds,
      Command.compile, compile_group, compileList, getCountList,
      Command.get_count, Condition.compile, Condition.tt_atom_direct,
      Condition.normalize, Condition.str_cond, combine_conditions_commands,
      map_run_cmd, startsWithHash, allWhitespace, rawLineCount, nlCount,
      FState.request_uid, FState.add_function, strip_sb, take16, apply_pfx]
  · simp [Execute.get_count, Execute.compile_internal, compile_if_cond,
      compile_since_20_format, handle_return_group_case_since_20,
      handle_else_since_20, then_commands_of, raw_execute_cmds,
      Command.compile, compile_group, compileList, getCountList,
      Command.get_count, Condition.compile, Condition.tt_atom_direct,
      Condition.normalize, Condition.str_cond, combine_conditions_commands,
      map_run_cmd, startsWithHash, allWhitespace, rawLineCount, nlCount,
      FState.request_uid, FState.add_function, strip_sb, take16, apply_pfx]

/-- Claim C7, amended: `Execute::get_count` builds its own fresh internal
compiler state, so it touches no caller state at all (it consumes no uid
from it and pushes nothing onto it, by construction), and whenever the
hash digests and the caller state's path and namespace are newline-free —
as for real md5 hex digests and real resource paths — its result equals
the number of lines `compile_internal` emits with empty prefix and no
grouping requirement from that caller state. -/
theorem C7_get_count_correct (md5h : String → String) (opts : CompileOptions)
    (e : Execute) (st : FState)
    (hm : ∀ s, nlCount (md5h s) = 0)
    (hp : nlCount st.path = 0) (hn : nlCount st.nspace = 0) :
    Execute.get_count md5h opts e
      = (Execute.compile_internal md5h opts e "" false st).1.length := by
  have h := (shape_eq md5h opts hm (8 * wExe e + 2)).2.2.2.2.1 e "" false
    ⟨0, "[INTERNAL]", "[INTERNAL]", []⟩ st ⟨by decide, by decide⟩ ⟨hp, hn⟩
    (by omega)
  rw [Execute.get_count]
  exact List.Forall₂.length_eq h.1

/-- Witness for C7 amended: the clean-path state `⟨0, "p", "ns", []⟩` on
the same if/else chain as the counterexample. -/
theorem C7_get_count_correct_witness :
    (∀ s, nlCount ((fun _ : String => "") s) = 0)
    ∧ nlCount (FState.path ⟨0, "p", "ns", []⟩) = 0
    ∧ nlCount (FState.nspace ⟨0, "p", "ns", []⟩) = 0
    ∧ Execute.get_count (fun _ => "") ⟨true, 48⟩
        (.If (.Atom "c") (.Runs [.Raw "x", .Raw "y"])
          (some (.Run (.Comment "z"))))
      = (Execute.compile_internal (fun _ => "") ⟨true, 48⟩
          (.If (.Atom "c") (.Runs [.Raw "x", .Raw "y"])
            (some (.Run (.Comment "z"))))
          "" false ⟨0, "p", "ns", []⟩).1.length :=
  ⟨fun _ => rfl, by decide, by decide,
    C7_get_count_correct (fun _ => "") ⟨true, 48⟩
      (.If (.Atom "c") (.Runs [.Raw "x", .Raw "y"])
        (some (.Run (.Comment "z"))))
      ⟨0, "p", "ns", []⟩ (fun _ => rfl) (by decide) (by decide)⟩

/-- Claim C10: wrapping an execute chain inside a `Run`/`Command::Execute`
is the identity under `compile_internal` — the `Run` arm forwards the
prefix, grouping flag and state untouched. -/
theorem C10_run_execute_identity (md5h : String → String)
    (opts : CompileOptions) (e : Execute) (pfx : String) (rg : Bool)
    (st : FState) :
    Execute.compile_internal md5h opts (.Run (.Execute e)) pfx rg st
      = Execute.compile_internal md5h opts e pfx rg st := by
  conv_lhs => rw [Execute.compile_internal]

end Shulkerbox
